import Mathlib

/-!
Verification development for the Rhino2D puppet animation engine
(crates rhino2d-io and rhino2d-engine).

The Rust sources are shallowly embedded as executable Lean definitions:

* `f32` values are modelled by the type `F`: an exact rational number or a
  single NaN value.  The model keeps the IEEE behaviour the engine relies on
  (NaN propagation through arithmetic, comparisons returning `false` on NaN,
  `f32::min` and `f32::max` returning the other operand when one side is NaN,
  `0 / 0 = NaN`, and a total ordering with NaN as the greatest element), but
  performs exact arithmetic: rounding, overflow to infinity, signed zero and
  distinct NaN payloads are not modelled.  On every code path analysed below a
  division by zero has a zero or NaN numerator, so the absence of infinities
  is not observable there.
* `f32::sin` and `f32::cos` (used by nalgebra's Euler-angle rotation matrix)
  are replaced by executable exact stand-ins that agree with sine and cosine
  at angle 0; no claim depends on trigonometric values at other angles.
* Rust slice indexing, which panics when out of bounds, is modelled with
  `Option`: a `none` result of an engine operation corresponds to a panic.
* The lock-free atomics of `atomic.rs` are modelled both at the bit level
  (`f32x2_to_u64` / `u64_to_f32x2` over `Nat` bit patterns) and, inside the
  engine model, as plain stored values, since the claims under study involve
  no concurrent writes.
* `HashMap<Uuid, Vec<ParamBinding>>` is modelled as a total function from
  node ids to binding lists (`remove` stores the empty list).
-/

/-- Model of an `f32` value: exact rational arithmetic plus one NaN value. -/
inductive F where
  | nan : F
  | num : ℚ → F
deriving DecidableEq

instance (n : Nat) : OfNat F n := ⟨F.num n⟩

/-- Tests whether the value is the NaN value (`f32::is_nan`). -/
def F.isNaN : F → Bool
  | .nan => true
  | .num _ => false

/-- IEEE addition on the model: NaN propagates, otherwise exact. -/
def F.add : F → F → F
  | .num a, .num b => .num (a + b)
  | _, _ => .nan

/-- IEEE subtraction on the model: NaN propagates, otherwise exact. -/
def F.sub : F → F → F
  | .num a, .num b => .num (a - b)
  | _, _ => .nan

/-- IEEE multiplication on the model: NaN propagates, otherwise exact. -/
def F.mul : F → F → F
  | .num a, .num b => .num (a * b)
  | _, _ => .nan

/-- IEEE division on the model: NaN propagates; a zero divisor yields NaN
(in IEEE a nonzero numerator would give an infinity, but every division the
engine performs has a zero or NaN numerator whenever the divisor is zero). -/
def F.div : F → F → F
  | .num a, .num b => if b = 0 then .nan else .num (a / b)
  | _, _ => .nan

/-- IEEE negation on the model. -/
def F.neg : F → F
  | .nan => .nan
  | .num a => .num (-a)

/-- The `<` comparison of `f32` (`PartialOrd`): false when a NaN is involved. -/
def F.lt : F → F → Bool
  | .num a, .num b => decide (a < b)
  | _, _ => false

/-- The `<=` comparison of `f32` (`PartialOrd`): false when a NaN is involved. -/
def F.le : F → F → Bool
  | .num a, .num b => decide (a ≤ b)
  | _, _ => false

/-- The `>` comparison of `f32` (`PartialOrd`): false when a NaN is involved. -/
def F.gt (a b : F) : Bool := F.lt b a

/-- The `==` comparison of `f32` (`PartialEq`): NaN is not equal to itself. -/
def F.beq : F → F → Bool
  | .num a, .num b => decide (a = b)
  | _, _ => false

/-- Model of `f32::min`: if one argument is NaN the other is returned. -/
def F.fmin : F → F → F
  | .nan, b => b
  | a, .nan => a
  | .num a, .num b => .num (min a b)

/-- Model of `f32::max`: if one argument is NaN the other is returned. -/
def F.fmax : F → F → F
  | .nan, b => b
  | a, .nan => a
  | .num a, .num b => .num (max a b)

/-- Model of `f32::total_cmp` (the IEEE 754 totalOrder predicate) for the
values representable in the model.  The single modelled NaN corresponds to a
positive NaN, which totalOrder places above every finite value. -/
def F.totalCmp : F → F → Ordering
  | .nan, .nan => .eq
  | .nan, .num _ => .gt
  | .num _, .nan => .lt
  | .num a, .num b => if a < b then .lt else if a = b then .eq else .gt

/-- Executable exact stand-in for `f32::sin` (truncated Taylor series).
It agrees with sine at angle 0 and propagates NaN; no claim analysed here
depends on trigonometric values at other angles. -/
def F.fsin : F → F
  | .nan => .nan
  | .num q => .num (q - q ^ 3 / 6 + q ^ 5 / 120)

/-- Executable exact stand-in for `f32::cos` (truncated Taylor series).
It agrees with cosine at angle 0 and propagates NaN. -/
def F.fcos : F → F
  | .nan => .nan
  | .num q => .num (1 - q ^ 2 / 2 + q ^ 4 / 24)

/-! ### ord.rs — total ordering utilities -/

/-- Model of `ord.rs::is_sorted` applied to an iterator of `TotalF32` values:
succeeds unless some element is greater than its successor under the IEEE 754
total ordering. -/
def isSortedTotal : List F → Bool
  | [] => true
  | [_] => true
  | a :: b :: rest =>
    if F.totalCmp a b = .gt then false else isSortedTotal (b :: rest)

/-! ### rhino2d-io data model

Only the fields the engine reads are modelled.  `axis_points` is modelled as
a pair of breakpoint lists, following the documented io layout (the second
list is always present; for 1-dimensional parameters the engine never reads
it).  `Vec2`/`Vec3` become pairs/triples of `F`. -/

/-- Node identifier (`rhino2d_io::Uuid`). -/
abbrev Uuid := Nat

/-- Model of `rhino2d_io::node::Transform`: translation, rotation (Euler
angles) and non-uniform scale. -/
structure IoTransform where
  trans : F × F × F
  rot : F × F × F
  scale : F × F
deriving DecidableEq

/-- Model of `Transform::new()`: zero translation and rotation, unit scale. -/
def IoTransform.new : IoTransform := ⟨(0, 0, 0), (0, 0, 0), (1, 1)⟩

/-- Model of `rhino2d_io::InterpolateMode`. -/
inductive InterpolateMode where
  | nearest
  | linear
deriving DecidableEq

/-- Model of `rhino2d_io::ParamValue`: a scalar grid value or a per-vertex
mesh deformation. -/
inductive IoParamValue where
  | scalar (f : F)
  | deformation (d : List (F × F))
deriving DecidableEq

/-- Model of `rhino2d_io::ParamBinding` (the fields the engine reads). -/
structure IoBinding where
  node : Uuid
  paramName : String
  values : List (List IoParamValue)
  interpolateMode : InterpolateMode
deriving DecidableEq

/-- Model of `rhino2d_io::Param` (the fields the engine reads). -/
structure IoParam where
  name : String
  isVec2 : Bool
  min : F × F
  max : F × F
  defaults : F × F
  axisPoints : List F × List F
  bindings : List IoBinding
deriving DecidableEq

/-- The node type tags of `rhino2d_io::node::Node`. -/
inductive IoNodeKind where
  | node
  | drawable
  | pathDeform
  | part
  | mask
  | composite
  | simplePhysics
deriving DecidableEq

/-- Model of `rhino2d_io::node::Node` together with its `NodeBase` fields
(uuid, zsort, transform, lock_to_root, children); the base is flattened into
the node since every variant dereferences to it. -/
inductive IoNode where
  | mk (kind : IoNodeKind) (uuid : Uuid) (name : String) (zsort : F)
      (transform : IoTransform) (lockToRoot : Bool) (children : List IoNode)

/-- The node type tag. -/
def IoNode.kind : IoNode → IoNodeKind
  | .mk k _ _ _ _ _ _ => k

/-- The node id. -/
def IoNode.uuid : IoNode → Uuid
  | .mk _ u _ _ _ _ _ => u

/-- The node name. -/
def IoNode.name : IoNode → String
  | .mk _ _ n _ _ _ _ => n

/-- The node's base Z-Sort value. -/
def IoNode.zsort : IoNode → F
  | .mk _ _ _ z _ _ _ => z

/-- The node's local transform. -/
def IoNode.transform : IoNode → IoTransform
  | .mk _ _ _ _ t _ _ => t

/-- The node's lock-to-root flag. -/
def IoNode.lockToRoot : IoNode → Bool
  | .mk _ _ _ _ _ l _ => l

/-- The node's ordered child list. -/
def IoNode.children : IoNode → List IoNode
  | .mk _ _ _ _ _ _ c => c

/-- Model of `rhino2d_io::InochiPuppet` (the parts the engine reads). -/
structure InochiPuppet where
  params : List IoParam
  rootNode : IoNode

/-! ### lib.rs — error type

The Rust `Error` is a message string built by one of two constructors,
`Error::unsupported` and `Error::invalid`; the constructor used is the error
kind, so the model keeps it observable.  Message strings are simplified
(the Rust code interpolates names and debug output into them). -/

/-- Model of `rhino2d_engine::Error`, tagged by the smart constructor that
built it. -/
inductive Error where
  | unsupported (msg : String)
  | invalid (msg : String)
deriving DecidableEq

/-- True for errors built by `Error::invalid`. -/
def Error.isInvalid : Error → Bool
  | .invalid _ => true
  | .unsupported _ => false

/-- True for errors built by `Error::unsupported`. -/
def Error.isUnsupported : Error → Bool
  | .invalid _ => false
  | .unsupported _ => true

/-! ### param.rs — axes, interpolation, bindings, the parameter map -/

/-- Model of `param.rs::ParamAxis`. -/
structure ParamAxis where
  min : F
  max : F
  axisPoints : List F
deriving DecidableEq

/-- Equality of `Option<&f32>` values as used by `ParamAxis::lower`
(`axis_points.first() != Some(&0.0)`): IEEE `==` on the contents. -/
def optFBeq : Option F → Option F → Bool
  | some a, some b => F.beq a b
  | none, none => true
  | _, _ => false

/-- Model of `ParamAxis::lower`, taking one axis of a parameter: its
breakpoint list and min/max (the Rust function receives the parameter and an
axis index and extracts these), plus the parameter name for error messages. -/
def ParamAxis.lower (name : String) (axisPoints : List F) (mn mx : F) :
    Except Error ParamAxis :=
  if axisPoints.isEmpty then
    .error (.invalid ("parameter " ++ name ++ " is invalid: no axis points"))
  else if !(optFBeq axisPoints.head? (some 0) && optFBeq axisPoints.getLast? (some 1)) then
    .error (.invalid ("parameter " ++ name ++
      " is invalid: invalid axis points, first must be 0.0, last must be 1.0"))
  else if !isSortedTotal axisPoints then
    .error (.invalid ("axis points of parameter " ++ name ++ " are not in sorted order"))
  else if mn.gt mx then
    .error (.invalid ("parameter " ++ name ++
      " is invalid: minimum is greater than the maximum"))
  else
    .ok ⟨mn, mx, axisPoints⟩

/-- `ParamAxis::lower(param, index)` as called by `ParamMap::lower`:
extracts the indexed axis data from the io parameter. -/
def ParamAxis.lowerAt (p : IoParam) (index : Nat) : Except Error ParamAxis :=
  if index = 0 then
    ParamAxis.lower p.name p.axisPoints.1 p.min.1 p.max.1
  else
    ParamAxis.lower p.name p.axisPoints.2 p.min.2 p.max.2

/-- Model of `param.rs::Interp`: a bucket index and a fractional distance
(0 means at the start breakpoint, 1 means at the next one). -/
structure Interp where
  startIndex : Nat
  dist : F
deriving DecidableEq

/-- Model of `ParamAxis::interp`: clamp the raw value into `[min, max]`,
remap into `[0, 1]`, locate the first breakpoint strictly greater than the
normalized value and return the preceding bucket with the fractional
distance.  The breakpoint indexing panics (`none`) only on an empty axis. -/
def ParamAxis.interp (a : ParamAxis) (value : F) : Option Interp :=
  let v := (((value.fmin a.max).fmax a.min).sub a.min).div (a.max.sub a.min)
  let largerIdx := (a.axisPoints.findIdx? (fun p => p.gt v)).getD (a.axisPoints.length - 1)
  let smallerIdx := largerIdx - 1
  match a.axisPoints.get? largerIdx, a.axisPoints.get? smallerIdx with
  | some largerVal, some smallerVal =>
    some ⟨smallerIdx, (v.sub smallerVal).div (largerVal.sub smallerVal)⟩
  | _, _ => none

/-- Model of `Interp::lookup`: linear interpolation between two adjacent grid
cells; the cell at `start_index + 1` is only read when the distance is
strictly positive.  Out-of-bounds indexing yields `none` (a Rust panic). -/
def Interp.lookup (i : Interp) (values : List F) : Option F := do
  let start ← values.get? i.startIndex
  if i.dist.gt 0 then do
    let stop ← values.get? (i.startIndex + 1)
    pure ((start.mul ((1 : F).sub i.dist)).add (stop.mul i.dist))
  else
    pure start

/-- Model of `param.rs::Param1D`: the single axis (`axes: [ParamAxis; 1]`)
and the current value of the `AtomicF32` (no concurrent writes are involved
in the claims, so the atomic is its stored value). -/
structure Param1D where
  axes : ParamAxis
  value : F
deriving DecidableEq

/-- Model of `param.rs::Param2D`: both axes and the current packed value of
the `AtomicF32x2`. -/
structure Param2D where
  axes : ParamAxis × ParamAxis
  value : F × F
deriving DecidableEq

/-- Model of `param.rs::ParamHandle` (the `Arc` sharing itself is not
modelled; a handle carries its current snapshot). -/
inductive ParamHandle where
  | param1D (p : Param1D)
  | param2D (p : Param2D)
deriving DecidableEq

/-- Model of `param.rs::ParamTarget`. -/
inductive ParamTarget where
  | zSort
  | translationX
  | translationY
  | translationZ
  | rotationX
  | rotationY
  | rotationZ
  | scaleX
  | scaleY
deriving DecidableEq

/-- Model of `ParamTarget::from_str`: the nine recognized target names;
anything else is an unsupported-feature error. -/
def ParamTarget.fromStr (s : String) : Except Error ParamTarget :=
  if s = "zSort" then .ok .zSort
  else if s = "transform.t.x" then .ok .translationX
  else if s = "transform.t.y" then .ok .translationY
  else if s = "transform.t.z" then .ok .translationZ
  else if s = "transform.r.x" then .ok .rotationX
  else if s = "transform.r.y" then .ok .rotationY
  else if s = "transform.r.z" then .ok .rotationZ
  else if s = "transform.s.x" then .ok .scaleX
  else if s = "transform.s.y" then .ok .scaleY
  else .error (.unsupported ("parameter target " ++ s))

/-- Model of `param.rs::ParamBinding`. -/
structure ParamBinding where
  param : ParamHandle
  target : ParamTarget
  values : List (List F)
deriving DecidableEq

/-- Model of `ParamBinding::value`: load the current parameter value(s),
interpolate each axis (a 1D parameter fixes the Y axis at bucket 0,
distance 0), then bilinearly blend the one or two grid rows selected by the
Y interpolation.  `none` corresponds to a Rust indexing panic. -/
def ParamBinding.value (b : ParamBinding) : Option F := do
  let xy ← match b.param with
    | .param1D p =>
      match p.axes.interp p.value with
      | some ix => some (ix, (⟨0, 0⟩ : Interp))
      | none => none
    | .param2D p => do
      let ix ← p.axes.1.interp p.value.1
      let iy ← p.axes.2.interp p.value.2
      pure (ix, iy)
  let x := xy.1
  let y := xy.2
  let startRow ← b.values.get? y.startIndex
  let start ← x.lookup startRow
  if y.dist.gt 0 then do
    let endRow ← b.values.get? (min (y.startIndex + 1) (b.values.length - 1))
    let stop ← x.lookup endRow
    pure ((start.mul ((1 : F).sub y.dist)).add (stop.mul y.dist))
  else
    pure start

/-- Model of `param.rs::ParamMap`: the `HashMap<Uuid, Vec<ParamBinding>>` is
modelled as a total function from node ids to binding lists (an absent key
maps to the empty list, matching `remove(..).unwrap_or_default()`). -/
structure ParamMap where
  map : Uuid → List ParamBinding

/-- The empty parameter map. -/
def ParamMap.empty : ParamMap := ⟨fun _ => []⟩

/-- Model of `map.entry(node).or_default().push(binding)`. -/
def ParamMap.insert (m : ParamMap) (node : Uuid) (b : ParamBinding) : ParamMap :=
  ⟨fun u => if u = node then m.map u ++ [b] else m.map u⟩

/-- Model of `ParamMap::take_params_affecting_node`: remove and return the
bindings stored for the node id. -/
def ParamMap.takeParamsAffectingNode (m : ParamMap) (node : Uuid) :
    List ParamBinding × ParamMap :=
  (m.map node, ⟨fun u => if u = node then [] else m.map u⟩)

/-- The per-cell conversion inside `ParamMap::lower`: a scalar grid value is
kept, a mesh deformation is an unsupported feature. -/
def paramValueLower : IoParamValue → Except Error F
  | .scalar f => .ok f
  | .deformation _ => .error (.unsupported ("mesh deformation"))

/-- Lowering of a single io binding inside `ParamMap::lower`: reject
non-linear interpolation modes, resolve the target name, and require every
grid value to be a scalar (a deformation is unsupported). -/
def ParamBinding.lower (handle : ParamHandle) (b : IoBinding) :
    Except Error ParamBinding :=
  if b.interpolateMode ≠ .linear then
    .error (.unsupported ("parameter binding interpolation mode"))
  else do
    let target ← ParamTarget.fromStr b.paramName
    let values ← b.values.mapM (fun row => row.mapM paramValueLower)
    pure ⟨handle, target, values⟩

/-- The per-parameter step of `ParamMap::lower`: lower the axes into a
handle initialized with the declared defaults, then lower each binding and
index it under the node id it targets. -/
def ParamMap.lowerParam (m : ParamMap) (p : IoParam) : Except Error ParamMap := do
  let handle ←
    if p.isVec2 then do
      let ax0 ← ParamAxis.lowerAt p 0
      let ax1 ← ParamAxis.lowerAt p 1
      pure (ParamHandle.param2D ⟨(ax0, ax1), p.defaults⟩)
    else do
      let ax0 ← ParamAxis.lowerAt p 0
      pure (ParamHandle.param1D ⟨ax0, p.defaults.1⟩)
  p.bindings.foldlM (fun m b => do
    let eb ← ParamBinding.lower handle b
    pure (m.insert b.node eb)) m

/-- Model of `ParamMap::lower`. -/
def ParamMap.lower (params : List IoParam) : Except Error ParamMap :=
  params.foldlM ParamMap.lowerParam ParamMap.empty

/-! ### node.rs — transforms, the node tree, and the per-frame update -/

/-- A 4x4 matrix of `f32` values (`nalgebra::Matrix4<f32>`). -/
abbrev Mat4 := Fin 4 → Fin 4 → F

/-- The identity matrix. -/
def matIdentity : Mat4 := fun i j => if i = j then 1 else 0

/-- Matrix multiplication (row times column, the four products summed). -/
def matMul (a b : Mat4) : Mat4 := fun i j =>
  ((((a i 0).mul (b 0 j)).add ((a i 1).mul (b 1 j))).add
    ((a i 2).mul (b 2 j))).add ((a i 3).mul (b 3 j))

/-- `Matrix4::new_nonuniform_scaling(Vector3(sx, sy, 1.0))`. -/
def matScaling (sx sy : F) : Mat4 :=
  ![![sx, 0, 0, 0], ![0, sy, 0, 0], ![0, 0, 1, 0], ![0, 0, 0, 1]]

/-- Homogeneous rotation about the X axis by angle `a`. -/
def matRotX (a : F) : Mat4 :=
  ![![1, 0, 0, 0], ![0, a.fcos, (a.fsin).neg, 0], ![0, a.fsin, a.fcos, 0], ![0, 0, 0, 1]]

/-- Homogeneous rotation about the Y axis by angle `a`. -/
def matRotY (a : F) : Mat4 :=
  ![![a.fcos, 0, a.fsin, 0], ![0, 1, 0, 0], ![(a.fsin).neg, 0, a.fcos, 0], ![0, 0, 0, 1]]

/-- Homogeneous rotation about the Z axis by angle `a`. -/
def matRotZ (a : F) : Mat4 :=
  ![![a.fcos, (a.fsin).neg, 0, 0], ![a.fsin, a.fcos, 0, 0], ![0, 0, 1, 0], ![0, 0, 0, 1]]

/-- `Matrix4::from_euler_angles(roll, pitch, yaw)`: the primitive rotations
are applied roll (X) first, then pitch (Y), then yaw (Z). -/
def matEuler (roll pitch yaw : F) : Mat4 :=
  matMul (matRotZ yaw) (matMul (matRotY pitch) (matRotX roll))

/-- `Matrix4::new_translation(Vector3(tx, ty, tz))`. -/
def matTranslation (tx ty tz : F) : Mat4 :=
  ![![1, 0, 0, tx], ![0, 1, 0, ty], ![0, 0, 1, tz], ![0, 0, 0, 1]]

/-- Model of `node.rs::Transform`: an affine transformation as a 4x4 matrix. -/
structure Transform where
  mat : Mat4

/-- `Transform::identity()`. -/
def Transform.identity : Transform := ⟨matIdentity⟩

/-- `Transform::from_io`: scale times Euler rotation times translation. -/
def Transform.fromIo (t : IoTransform) : Transform :=
  ⟨matMul (matScaling t.scale.1 t.scale.2)
    (matMul (matEuler t.rot.1 t.rot.2.1 t.rot.2.2)
      (matTranslation t.trans.1 t.trans.2.1 t.trans.2.2))⟩

/-- `impl Mul for Transform`: `self.mat * rhs.mat`. -/
def Transform.mul (a b : Transform) : Transform := ⟨matMul a.mat b.mat⟩

/-- Model of `lib.rs::RenderCommand`. -/
structure RenderCommand where
  node : Uuid
  zsort : F
  transform : Transform
  deform : Option (List (F × F))

/-- Model of `lib.rs::RenderBuffer`. -/
structure RenderBuffer where
  commands : List RenderCommand

/-- The comparison `RenderBuffer::finish` sorts by:
`sort_by_key(|cmd| TotalF32(-cmd.zsort))`, i.e. ascending in the total
ordering of the negated Z-Sort value. -/
def cmdLe (a b : RenderCommand) : Bool :=
  match F.totalCmp (F.neg a.zsort) (F.neg b.zsort) with
  | .gt => false
  | _ => true

/-- Model of `RenderBuffer::finish`: stable sort of the accumulated commands
by the total ordering of the negated Z-Sort value (Rust `sort_by_key` is a
stable sort; it is modelled by `List.mergeSort`).  The command list is NOT
cleared, matching the source. -/
def RenderBuffer.finish (rb : RenderBuffer) : RenderBuffer :=
  ⟨rb.commands.mergeSort cmdLe⟩

/-- Model of `node.rs::Node` together with its `NodeBase` fields; the base is
flattened into the node (`Drawable` adds no fields of its own), with
`isDrawable` recording which enum variant it is. -/
inductive Node where
  | mk (isDrawable : Bool) (uuid : Uuid) (children : List Node)
      (params : List ParamBinding) (baseTransform : Transform) (baseZsort : F)
      (globalTransform : Transform) (zsort : F) (lockToRoot : Bool)

/-- The `Drawable` (vs plain `Node`) variant tag. -/
def Node.isDrawable : Node → Bool
  | .mk d _ _ _ _ _ _ _ _ => d

/-- The node id. -/
def Node.uuid : Node → Uuid
  | .mk _ u _ _ _ _ _ _ _ => u

/-- The node's ordered child list. -/
def Node.children : Node → List Node
  | .mk _ _ c _ _ _ _ _ _ => c

/-- The parameter bindings that affect this node. -/
def Node.params : Node → List ParamBinding
  | .mk _ _ _ p _ _ _ _ _ => p

/-- The node's base transform from the model. -/
def Node.baseTransform : Node → Transform
  | .mk _ _ _ _ bt _ _ _ _ => bt

/-- The node's base Z-Sort value from the model. -/
def Node.baseZsort : Node → F
  | .mk _ _ _ _ _ bz _ _ _ => bz

/-- The node's cached global transform. -/
def Node.globalTransform : Node → Transform
  | .mk _ _ _ _ _ _ g _ _ => g

/-- The node's cached computed Z-Sort value. -/
def Node.zsort : Node → F
  | .mk _ _ _ _ _ _ _ z _ => z

/-- The node's lock-to-root flag. -/
def Node.lockToRoot : Node → Bool
  | .mk _ _ _ _ _ _ _ _ l => l

/-- Replaces the node's child list (models the in-place mutation of the
children during `update_recursive`). -/
def Node.withChildren : Node → List Node → Node
  | .mk d u _ p bt bz g z l, chs => .mk d u chs p bt bz g z l

/-- The parameter-application loop at the start of `NodeBase::update_self`:
every owned binding is evaluated and added onto the accumulated Z-Sort value
or the matching field of the parameter-offset transform. -/
def applyParams : List ParamBinding → F → IoTransform → Option (F × IoTransform)
  | [], z, tf => some (z, tf)
  | p :: rest, z, tf => do
    let value ← p.value
    match p.target with
    | .zSort => applyParams rest (z.add value) tf
    | .translationX =>
      applyParams rest z { tf with trans := (tf.trans.1.add value, tf.trans.2.1, tf.trans.2.2) }
    | .translationY =>
      applyParams rest z { tf with trans := (tf.trans.1, tf.trans.2.1.add value, tf.trans.2.2) }
    | .translationZ =>
      applyParams rest z { tf with trans := (tf.trans.1, tf.trans.2.1, tf.trans.2.2.add value) }
    | .rotationX =>
      applyParams rest z { tf with rot := (tf.rot.1.add value, tf.rot.2.1, tf.rot.2.2) }
    | .rotationY =>
      applyParams rest z { tf with rot := (tf.rot.1, tf.rot.2.1.add value, tf.rot.2.2) }
    | .rotationZ =>
      applyParams rest z { tf with rot := (tf.rot.1, tf.rot.2.1, tf.rot.2.2.add value) }
    | .scaleX =>
      applyParams rest z { tf with scale := (tf.scale.1.add value, tf.scale.2) }
    | .scaleY =>
      applyParams rest z { tf with scale := (tf.scale.1, tf.scale.2.add value) }

/-- Model of `NodeBase::update_self`: apply the bindings to the base Z-Sort
value and a fresh offset transform, compose
`self_transform = base_transform * offset_transform`, resolve the global
transform (ignoring the parent when `lock_to_root` is set), store the results
in the node and emit the render command. -/
def Node.updateSelf : Node → Transform → Option (Node × RenderCommand)
  | .mk d u chs ps bt bz _ _ lock, parentTransform => do
    let ztf ← applyParams ps bz IoTransform.new
    let selfTransform := Transform.mul bt (Transform.fromIo ztf.2)
    let g := if lock then selfTransform else Transform.mul selfTransform parentTransform
    pure (.mk d u chs ps bt bz g ztf.1 lock, ⟨u, ztf.1, g, none⟩)

mutual

/-- Model of `NodeBase::update_recursive`: update the node itself, then each
child in order against this node's freshly resolved global transform.
`update_self` leaves the child list untouched, so the recursion runs over the
node's own children.  The emitted commands appear in pre-order. -/
def Node.updateRecursive (n : Node) (delta : Nat) (parentTransform : Transform) :
    Option (Node × List RenderCommand) :=
  match n with
  | .mk d u chs ps bt bz g0 z0 lock => do
    let nc ← Node.updateSelf (.mk d u chs ps bt bz g0 z0 lock) parentTransform
    let rest ← Node.updateChildList chs delta nc.1.globalTransform
    pure (nc.1.withChildren rest.1, nc.2 :: rest.2)

/-- The child loop of `update_recursive`. -/
def Node.updateChildList (l : List Node) (delta : Nat) (parentTransform : Transform) :
    Option (List Node × List RenderCommand) :=
  match l with
  | [] => some ([], [])
  | c :: rest => do
    let cr ← c.updateRecursive delta parentTransform
    let rr ← Node.updateChildList rest delta parentTransform
    pure (cr.1 :: rr.1, cr.2 ++ rr.2)

end

/-- Model of `Node::update`: run the recursive update from the root with an
identity parent transform. -/
def Node.update (n : Node) (delta : Nat) : Option (Node × List RenderCommand) :=
  n.updateRecursive delta Transform.identity

mutual

/-- Model of `Node::from_io` / `NodeBase::from_io`: plain nodes, drawables
and parts are lowered (children first, then the node's bindings are taken
from the parameter map — the evaluation order of the Rust struct literal);
any other node type is an unsupported-feature error. -/
def Node.fromIo (m : ParamMap) (io : IoNode) : Except Error (Node × ParamMap) :=
  match io with
  | .mk kind uuid name zsort transform lockToRoot children =>
    match kind with
    | .node | .drawable | .part => do
      let chs ← Node.fromIoList m children
      let ps := chs.2.takeParamsAffectingNode uuid
      pure (.mk (kind ≠ IoNodeKind.node) uuid chs.1 ps.1 (Transform.fromIo transform)
        zsort Transform.identity zsort lockToRoot, ps.2)
    | _ => .error (.unsupported ("node " ++ name ++ " has unimplemented node type"))

/-- The child loop of `NodeBase::from_io` (fail-fast, left to right). -/
def Node.fromIoList (m : ParamMap) (l : List IoNode) :
    Except Error (List Node × ParamMap) :=
  match l with
  | [] => .ok ([], m)
  | io :: rest => do
    let c ← Node.fromIo m io
    let cs ← Node.fromIoList c.2 rest
    pure (c.1 :: cs.1, cs.2)

end

/-! ### lib.rs — the engine -/

/-- Model of `lib.rs::PuppetEngine`. -/
structure PuppetEngine where
  rootNode : Node
  renderBuffer : RenderBuffer

/-- Model of `PuppetEngine::new`: lower the parameter map, then the node
tree against it; start with an empty render buffer. -/
def PuppetEngine.new (puppet : InochiPuppet) : Except Error PuppetEngine := do
  let m ← ParamMap.lower puppet.params
  let root ← Node.fromIo m puppet.rootNode
  pure ⟨root.1, ⟨[]⟩⟩

/-- Model of `PuppetEngine::update`: run the recursive update (which pushes
this frame's commands onto the render buffer), sort the buffer, and return
its contents.  As in the source, the buffer is never cleared, so commands
accumulate across calls. -/
def PuppetEngine.update (e : PuppetEngine) (delta : Nat) :
    Option (List RenderCommand × PuppetEngine) := do
  let r ← e.rootNode.update delta
  let rb := RenderBuffer.finish ⟨e.renderBuffer.commands ++ r.2⟩
  pure (rb.commands, ⟨r.1, rb⟩)

/-! ### atomic.rs — bit-level model

`f32::to_bits` and `f32::from_bits` are mutually inverse bit-exact casts, so
an `f32` is modelled here by its 32-bit pattern, a `Nat` below `2 ^ 32`;
this covers every NaN payload. -/

/-- Model of `atomic.rs::f32x2_to_u64` over bit patterns:
`u64::from(x.to_bits()) | (u64::from(y.to_bits()) << 32)`. -/
def f32x2ToU64 (x y : Nat) : Nat := x ||| (y <<< 32)

/-- Model of `atomic.rs::u64_to_f32x2` over bit patterns:
the low word (`u as u32`) and the high word (`(u >> 32) as u32`). -/
def u64ToF32x2 (u : Nat) : Nat × Nat := (u % 2 ^ 32, (u >>> 32) % 2 ^ 32)

/-- Model of `atomic.rs::AtomicF32x2`: the packed `AtomicU64` content. -/
structure AtomicF32x2Bits where
  word : Nat

/-- `AtomicF32x2::new(x, y)`. -/
def AtomicF32x2Bits.new (x y : Nat) : AtomicF32x2Bits := ⟨f32x2ToU64 x y⟩

/-- `AtomicF32x2::load` (the memory ordering has no effect in a single-writer
snapshot model). -/
def AtomicF32x2Bits.load (a : AtomicF32x2Bits) : Nat × Nat := u64ToF32x2 a.word

/-- `AtomicF32x2::store(x, y)`. -/
def AtomicF32x2Bits.store (_a : AtomicF32x2Bits) (x y : Nat) : AtomicF32x2Bits :=
  ⟨f32x2ToU64 x y⟩

/-! ### Bit-level lemmas for atomic.rs -/

/-- The low 32 bits of the packed word recover the first component. -/
theorem packedLow {x : Nat} (y : Nat) (hx : x < 2 ^ 32) :
    (x ||| (y <<< 32)) % 2 ^ 32 = x := by
  apply Nat.eq_of_testBit_eq
  intro i
  simp only [Nat.testBit_mod_two_pow, Nat.testBit_lor, Nat.testBit_shiftLeft]
  by_cases hi : i < 32
  · have : ¬(32 ≤ i) := by omega
    simp [hi, this]
  · have hxi : x.testBit i = false :=
      Nat.testBit_lt_two_pow (Nat.lt_of_lt_of_le hx (Nat.pow_le_pow_right (by omega) (by omega)))
    simp [hi, hxi]

/-- The high 32 bits of the packed word recover the second component. -/
theorem packedHigh (x : Nat) {y : Nat} (hx : x < 2 ^ 32) (hy : y < 2 ^ 32) :
    ((x ||| (y <<< 32)) >>> 32) % 2 ^ 32 = y := by
  apply Nat.eq_of_testBit_eq
  intro i
  simp only [Nat.testBit_mod_two_pow, Nat.testBit_shiftRight, Nat.testBit_lor,
    Nat.testBit_shiftLeft]
  by_cases hi : i < 32
  · have hxi : x.testBit (32 + i) = false :=
      Nat.testBit_lt_two_pow (Nat.lt_of_lt_of_le hx (Nat.pow_le_pow_right (by omega) (by omega)))
    have h32 : 32 ≤ 32 + i := by omega
    simp [hi, hxi, h32, Nat.add_sub_cancel_left]
  · have hyi : y.testBit i = false :=
      Nat.testBit_lt_two_pow (Nat.lt_of_lt_of_le hy (Nat.pow_le_pow_right (by omega) (by omega)))
    simp [hi, hyi]

/-- Claim C9: packing two f32 bit patterns into one 64-bit word and
unpacking is a bit-exact round trip, for every bit pattern including every
NaN payload; consequently constructing an `AtomicF32x2` from a pair, or
storing a pair, followed by a load with no intervening store, returns
exactly the written pair. -/
theorem atomicF32x2_roundTrip (x y : Nat) (hx : x < 2 ^ 32) (hy : y < 2 ^ 32) :
    u64ToF32x2 (f32x2ToU64 x y) = (x, y) ∧
    (AtomicF32x2Bits.new x y).load = (x, y) ∧
    (∀ a : AtomicF32x2Bits, (a.store x y).load = (x, y)) := by
  have hrt : u64ToF32x2 (f32x2ToU64 x y) = (x, y) := by
    unfold u64ToF32x2 f32x2ToU64
    rw [packedLow y hx, packedHigh x hx hy]
  refine ⟨hrt, hrt, fun a => hrt⟩

/-- Witness for C9 at two concrete NaN bit patterns (a quiet NaN with payload
and a negative quiet NaN). -/
theorem atomicF32x2_roundTrip_witness :
    u64ToF32x2 (f32x2ToU64 2143289345 4290772992) = (2143289345, 4290772992) :=
  (atomicF32x2_roundTrip 2143289345 4290772992 (by decide) (by decide)).1
/-! ### Claim C3 — parameter axis validation -/

/-- Claim C3: `ParamAxis::lower` returns an Invalid error exactly when the
axis has no breakpoints, or the breakpoints are not sorted ascending under
the IEEE 754 total ordering, or the first breakpoint is not (IEEE-)equal to
0.0 or the last is not 1.0, or the minimum exceeds the maximum; and every
accepted breakpoint list (NaN entries included) is sorted under the total
ordering. -/
theorem paramAxis_lower_invalid_iff (name : String) (points : List F) (mn mx : F) :
    ((∃ e, ParamAxis.lower name points mn mx = .error e ∧ e.isInvalid = true) ↔
      (points = [] ∨ isSortedTotal points = false ∨
        optFBeq points.head? (some 0) = false ∨
        optFBeq points.getLast? (some 1) = false ∨ mn.gt mx = true)) ∧
    (∀ ax, ParamAxis.lower name points mn mx = .ok ax → isSortedTotal points = true) := by
  unfold ParamAxis.lower
  split_ifs with h1 h2 h3 h4
  · refine ⟨⟨fun _ => ?_, fun _ => ⟨_, rfl, rfl⟩⟩, fun ax hax => by cases hax⟩
    exact Or.inl (List.isEmpty_iff.mp h1)
  · refine ⟨⟨fun _ => ?_, fun _ => ⟨_, rfl, rfl⟩⟩, fun ax hax => by cases hax⟩
    rw [Bool.not_eq_true'] at h2
    rcases Bool.and_eq_false_iff.mp h2 with h | h
    · exact Or.inr (Or.inr (Or.inl h))
    · exact Or.inr (Or.inr (Or.inr (Or.inl h)))
  · refine ⟨⟨fun _ => ?_, fun _ => ⟨_, rfl, rfl⟩⟩, fun ax hax => by cases hax⟩
    rw [Bool.not_eq_true'] at h3
    exact Or.inr (Or.inl h3)
  · refine ⟨⟨fun _ => ?_, fun _ => ⟨_, rfl, rfl⟩⟩, fun ax hax => by cases hax⟩
    exact Or.inr (Or.inr (Or.inr (Or.inr h4)))
  · simp only [Bool.not_eq_true, Bool.not_eq_false', Bool.and_eq_true] at h1 h2 h3 h4
    constructor
    · constructor
      · rintro ⟨e, he, -⟩
        cases he
      · intro h
        exfalso
        rcases h with h | h | h | h | h
        · rw [List.isEmpty_iff.mpr h] at h1
          cases h1
        · rw [h3] at h
          cases h
        · rw [h2.1] at h
          cases h
        · rw [h2.2] at h
          cases h
        · rw [h] at h4
          cases h4
    · intro ax hax
      exact h3

/-- Witness for C3: the axis with breakpoints `[0.0, 1.0]`, min 0, max 1 is
accepted, hence sorted under the total ordering. -/
theorem paramAxis_lower_invalid_iff_witness :
    isSortedTotal [(0 : F), 1] = true :=
  (paramAxis_lower_invalid_iff "p" [(0 : F), 1] 0 1).2 ⟨0, 1, [(0 : F), 1]⟩ (by rfl)

/-! ### Claim C1 — the render buffer is never cleared (code bug)

`RenderBuffer::finish` sorts `commands` in place but nothing ever clears the
vector, so every `update` call appends the new frame's commands to all
previous frames' commands and returns the whole accumulated list. -/

/-- A minimal puppet: no parameters, a single plain root node. -/
def c1Puppet : InochiPuppet := ⟨[], .mk .node 1 "root" 0 IoTransform.new false []⟩

/-- The engine `PuppetEngine::new` builds for `c1Puppet`. -/
def c1Engine : PuppetEngine :=
  ⟨.mk false 1 [] [] (Transform.fromIo IoTransform.new) 0 Transform.identity 0 false, ⟨[]⟩⟩

/-- Claim C1 (refuting evaluation): on a successfully constructed engine with
one node and no parameter writes at all, the first `update` returns 1 render
command but the second returns 2 — the previous frame's command persists in
the returned sequence, so consecutive calls are not identical. -/
theorem update_not_idempotent :
    PuppetEngine.new c1Puppet = .ok c1Engine ∧
    (c1Engine.update 0).map (fun r => r.1.length) = some 1 ∧
    ((c1Engine.update 0).bind (fun r => r.2.update 0)).map (fun r => r.1.length) = some 2 := by
  refine ⟨rfl, ?_, ?_⟩
  · simp [PuppetEngine.update, Node.update, RenderBuffer.finish, c1Engine,
      Node.updateRecursive, Node.updateSelf, Node.updateChildList, applyParams,
      Node.withChildren, Node.globalTransform, List.mergeSort]
  · simp [PuppetEngine.update, Node.update, RenderBuffer.finish, c1Engine,
      Node.updateRecursive, Node.updateSelf, Node.updateChildList, applyParams,
      Node.withChildren, Node.globalTransform, List.mergeSort]

/-! ### Claim C7 — lock-to-root -/

/-- Claim C7: during `update_self`, a node flagged lock-to-root resolves its
global transform to its own composed self transform
(`base_transform * offset_transform`) alone, identically for every parent
transform; a node without the flag resolves it to
`self_transform * parent_global_transform`. -/
theorem updateSelf_lockToRoot (n : Node) (pt : Transform) (z : F) (tf : IoTransform)
    (hap : applyParams n.params n.baseZsort IoTransform.new = some (z, tf))
    (n' : Node) (cmd : RenderCommand) (hup : n.updateSelf pt = some (n', cmd)) :
    (n.lockToRoot = true →
      n'.globalTransform = Transform.mul n.baseTransform (Transform.fromIo tf) ∧
      ∀ (pt' : Transform) (n'' : Node) (cmd' : RenderCommand),
        n.updateSelf pt' = some (n'', cmd') →
        n''.globalTransform = n'.globalTransform) ∧
    (n.lockToRoot = false →
      n'.globalTransform =
        Transform.mul (Transform.mul n.baseTransform (Transform.fromIo tf)) pt) := by
  cases n with
  | mk d u chs ps bt bz g0 z0 lock =>
    simp only [Node.params, Node.baseZsort, Node.baseTransform, Node.lockToRoot] at hap ⊢
    simp only [Node.updateSelf, hap, Option.pure_def, Option.bind_eq_bind, Option.some_bind, Option.some.injEq, Prod.mk.injEq] at hup
    obtain ⟨hn, -⟩ := hup
    subst hn
    cases lock with
    | true =>
      refine ⟨fun _ => ⟨rfl, fun pt' n'' cmd' hup' => ?_⟩, fun hf => (nomatch hf)⟩
      simp only [Node.updateSelf, hap, Option.pure_def, Option.bind_eq_bind, Option.some_bind, Option.some.injEq, Prod.mk.injEq] at hup'
      obtain ⟨hn', -⟩ := hup'
      subst hn'
      rfl
    | false =>
      exact ⟨fun ht => (nomatch ht), fun _ => rfl⟩

/-- Witness for C7 at a concrete locked node and a concrete parent
transform. -/
theorem updateSelf_lockToRoot_witness :
    ∃ (n' : Node) (cmd : RenderCommand),
      Node.updateSelf (.mk false 7 [] [] Transform.identity 0 Transform.identity 0 true)
        ⟨matTranslation 1 2 3⟩ = some (n', cmd) ∧
      n'.globalTransform =
        Transform.mul Transform.identity (Transform.fromIo IoTransform.new) := by
  refine ⟨_, _, rfl, ?_⟩
  exact ((updateSelf_lockToRoot
    (.mk false 7 [] [] Transform.identity 0 Transform.identity 0 true)
    ⟨matTranslation 1 2 3⟩ 0 IoTransform.new rfl _ _ rfl).1 rfl).1

/-! ### Claim C10 — update mutates only the cached global transform and zsort -/

instance : DecidableEq Transform := fun a b =>
  decidable_of_iff (a.mat = b.mat) (by cases a; cases b; simp)

mutual

/-- Recursive check that two nodes agree on every field except the cached
`global_transform` and `zsort`: same variant, uuid, binding list, base
transform, base zsort and lock-to-root flag, and the same number of children
in the same order, recursively. -/
def staticEq : Node → Node → Bool
  | .mk d u chs ps bt bz _ _ l, .mk d' u' chs' ps' bt' bz' _ _ l' =>
    (d == d') && (u == u') && decide (ps = ps') && decide (bt = bt') &&
      decide (bz = bz') && (l == l') && staticEqList chs chs'

/-- Pointwise `staticEq` on child lists (false on a length mismatch). -/
def staticEqList : List Node → List Node → Bool
  | [], [] => true
  | a :: as, b :: bs => staticEq a b && staticEqList as bs
  | _, _ => false

end

mutual

/-- `update_recursive` preserves every static field of every node. -/
theorem updateRecursive_staticEq : ∀ (n : Node) (delta : Nat) (pt : Transform)
    (r : Node × List RenderCommand), n.updateRecursive delta pt = some r →
    staticEq n r.1 = true
  | .mk d u chs ps bt bz g0 z0 lock, delta, pt, r, h => by
    rcases hap : applyParams ps bz IoTransform.new with - | ztf
    · simp [Node.updateRecursive, Node.updateSelf, hap] at h
    · simp only [Node.updateRecursive, Node.updateSelf, hap, Option.pure_def,
        Option.bind_eq_bind, Option.some_bind, Node.globalTransform, Node.withChildren] at h
      rcases hrest : Node.updateChildList chs delta
          (if lock = true then bt.mul (Transform.fromIo ztf.2)
            else (bt.mul (Transform.fromIo ztf.2)).mul pt) with - | rest
      · rw [hrest] at h
        simp at h
      · rw [hrest] at h
        simp only [Option.some_bind, Option.some.injEq] at h
        subst h
        have hch := updateChildList_staticEq chs delta _ rest hrest
        simp [staticEq, hch]

/-- The child loop of `update_recursive` preserves the child count, order
and every static field. -/
theorem updateChildList_staticEq : ∀ (l : List Node) (delta : Nat) (pt : Transform)
    (r : List Node × List RenderCommand), Node.updateChildList l delta pt = some r →
    staticEqList l r.1 = true
  | [], _, _, r, h => by
    simp only [Node.updateChildList, Option.some.injEq] at h
    subst h
    rfl
  | a :: as, delta, pt, r, h => by
    rcases hcr : a.updateRecursive delta pt with - | cr
    · simp [Node.updateChildList, hcr] at h
    · rcases hrr : Node.updateChildList as delta pt with - | rr
      · simp [Node.updateChildList, hcr, hrr] at h
      · simp only [Node.updateChildList, hcr, hrr, Option.pure_def, Option.bind_eq_bind,
          Option.some_bind, Option.some.injEq] at h
        subst h
        simp only [staticEqList, Bool.and_eq_true]
        exact ⟨updateRecursive_staticEq a delta pt cr hcr,
          updateChildList_staticEq as delta pt rr hrr⟩

end

/-- Claim C10: an `update` call mutates only each node's cached
`global_transform` and `zsort` and appends render commands: for every node of
the tree, the uuid, variant, base transform, base zsort, lock-to-root flag,
binding list, and the number and order of children are unchanged. -/
theorem update_preserves_static_fields (e : PuppetEngine) (delta : Nat)
    (r : List RenderCommand × PuppetEngine) (h : e.update delta = some r) :
    staticEq e.rootNode r.2.rootNode = true := by
  unfold PuppetEngine.update Node.update at h
  rcases hr : e.rootNode.updateRecursive delta Transform.identity with - | nr
  · rw [hr] at h
    simp at h
  · rw [hr] at h
    simp only [Option.pure_def, Option.bind_eq_bind, Option.some_bind, Option.some.injEq] at h
    subst h
    exact updateRecursive_staticEq e.rootNode delta Transform.identity nr hr

/-- Witness for C10 at a concrete two-node engine. -/
theorem update_preserves_static_fields_witness :
    ∃ r, (PuppetEngine.update
        ⟨.mk false 3 [.mk true 4 [] [] Transform.identity 1 Transform.identity 1 false]
          [] Transform.identity 5 Transform.identity 5 false, ⟨[]⟩⟩ 0) = some r ∧
      staticEq (Node.mk false 3
          [.mk true 4 [] [] Transform.identity 1 Transform.identity 1 false]
          [] Transform.identity 5 Transform.identity 5 false) r.2.rootNode = true := by
  have h : ∃ r, (PuppetEngine.update
      ⟨.mk false 3 [.mk true 4 [] [] Transform.identity 1 Transform.identity 1 false]
        [] Transform.identity 5 Transform.identity 5 false, ⟨[]⟩⟩ 0) = some r := by
    simp [PuppetEngine.update, Node.update, Node.updateRecursive, Node.updateSelf,
      applyParams, Node.updateChildList, Node.withChildren, Node.globalTransform,
      RenderBuffer.finish, List.mergeSort]
  obtain ⟨r, hr⟩ := h
  exact ⟨r, hr, update_preserves_static_fields _ 0 r hr⟩
/-! ### Claim C8 — the parameter map hands each binding to exactly one node -/

/-- Rewrite lemma: `Except.ok` feeds its value into a monadic bind. -/
theorem exceptOkBind {ε α β : Type} (a : α) (f : α → Except ε β) :
    (Except.ok a >>= f) = f a := rfl

/-- Rewrite lemma: `Except.error` short-circuits a monadic bind. -/
theorem exceptErrorBind {ε α β : Type} (e : ε) (f : α → Except ε β) :
    ((Except.error e : Except ε α) >>= f) = Except.error e := rfl

/-- Rewrite lemma: `pure` on `Except` is `Except.ok`. -/
theorem exceptPureEq {ε α : Type} (a : α) : (pure a : Except ε α) = Except.ok a := rfl

/-- Extraction returns the map entry of the requested node id. -/
theorem take_fst (m : ParamMap) (n : Uuid) :
    (m.takeParamsAffectingNode n).1 = m.map n := rfl

/-- Extraction empties the map entry of the requested node id. -/
theorem take_same (m : ParamMap) (n : Uuid) :
    (m.takeParamsAffectingNode n).2.map n = [] := by
  simp [ParamMap.takeParamsAffectingNode]

/-- Extraction leaves every other map entry untouched. -/
theorem take_other (m : ParamMap) {n k : Uuid} (h : k ≠ n) :
    (m.takeParamsAffectingNode n).2.map k = m.map k := by
  simp [ParamMap.takeParamsAffectingNode, h]

mutual

/-- Whether a node with the given uuid occurs in the io tree. -/
def uuidInNode (u : Uuid) : IoNode → Bool
  | .mk _ u' _ _ _ _ children => (u' == u) || uuidInList u children

/-- Whether a node with the given uuid occurs in the io forest. -/
def uuidInList (u : Uuid) : List IoNode → Bool
  | [] => false
  | a :: as => uuidInNode u a || uuidInList u as

end

mutual

/-- All bindings attached to nodes with the given uuid across the lowered
tree, concatenated. -/
def nodeParamsAt (u : Uuid) : Node → List ParamBinding
  | .mk _ u' chs ps _ _ _ _ _ => (if u' = u then ps else []) ++ nodeParamsAtList u chs

/-- All bindings attached to nodes with the given uuid across a lowered
forest. -/
def nodeParamsAtList (u : Uuid) : List Node → List ParamBinding
  | [] => []
  | a :: as => nodeParamsAt u a ++ nodeParamsAtList u as

end

mutual

/-- Distribution invariant of tree construction: a uuid occurring in the io
tree receives exactly the parameter map's binding list for it (and its map
entry is emptied afterwards); a uuid not occurring receives nothing and its
entry is untouched. -/
theorem fromIo_distributes : ∀ (m : ParamMap) (io : IoNode) (t : Node) (m' : ParamMap),
    Node.fromIo m io = .ok (t, m') → ∀ u : Uuid,
    (uuidInNode u io = true → nodeParamsAt u t = m.map u ∧ m'.map u = []) ∧
    (uuidInNode u io = false → nodeParamsAt u t = [] ∧ m'.map u = m.map u)
  | m, .mk kind v name zsort transform lock children, t, m', h, u => by
    cases hcs : Node.fromIoList m children with
    | error e =>
      cases kind <;>
          simp only [Node.fromIo, hcs, exceptErrorBind, exceptOkBind, exceptPureEq] at h <;>
        exact (nomatch h)
    | ok cs =>
      have hrec := fromIoList_distributes m children cs.1 cs.2 (by rw [hcs]) u
      cases kind <;>
        simp only [Node.fromIo, hcs, exceptOkBind, exceptErrorBind, exceptPureEq,
          Except.ok.injEq, Prod.mk.injEq] at h
      all_goals try exact (Except.noConfusion h)
      all_goals
      · obtain ⟨ht, hm⟩ := h
        subst hm
        subst ht
        simp only [uuidInNode, nodeParamsAt, Bool.or_eq_true, Bool.or_eq_false_iff,
          beq_iff_eq, beq_eq_false_iff_ne, ne_eq, Node.children, Node.params]
        constructor
        · rintro (hv | hin)
          · subst hv
            by_cases hin : uuidInList v children = true
            · obtain ⟨h1, h2⟩ := hrec.1 hin
              rw [take_fst, h1, h2, take_same]
              simp
            · obtain ⟨h1, h2⟩ := hrec.2 (Bool.not_eq_true _ ▸ hin)
              rw [take_fst, h1, h2, take_same]
              simp
          · obtain ⟨h1, h2⟩ := hrec.1 hin
            by_cases hv : v = u
            · subst hv
              rw [take_fst, h1, h2, take_same]
              simp
            · rw [@take_other cs.2 v u (fun hh => hv (Eq.symm hh)), h1, h2, if_neg hv]
              simp
        · rintro ⟨hv, hin⟩
          obtain ⟨h1, h2⟩ := hrec.2 hin
          rw [@take_other cs.2 v u (fun hh => hv (Eq.symm hh)), h1, h2, if_neg hv]
          simp

/-- Distribution invariant for forests. -/
theorem fromIoList_distributes : ∀ (m : ParamMap) (l : List IoNode) (ts : List Node)
    (m' : ParamMap), Node.fromIoList m l = .ok (ts, m') → ∀ u : Uuid,
    (uuidInList u l = true → nodeParamsAtList u ts = m.map u ∧ m'.map u = []) ∧
    (uuidInList u l = false → nodeParamsAtList u ts = [] ∧ m'.map u = m.map u)
  | m, [], ts, m', h, u => by
    simp only [Node.fromIoList, Except.ok.injEq, Prod.mk.injEq] at h
    obtain ⟨ht, hm⟩ := h
    subst ht
    subst hm
    exact ⟨fun hh => (nomatch hh), fun _ => ⟨rfl, rfl⟩⟩
  | m, a :: as, ts, m', h, u => by
    cases hca : Node.fromIo m a with
    | error e =>
      simp only [Node.fromIoList, hca, exceptErrorBind] at h
      exact (nomatch h)
    | ok ca =>
      cases hcs : Node.fromIoList ca.2 as with
      | error e =>
        simp only [Node.fromIoList, hca, hcs, exceptOkBind, exceptErrorBind] at h
        exact (nomatch h)
      | ok cs =>
        have hna := fromIo_distributes m a ca.1 ca.2 (by rw [hca]) u
        have hns := fromIoList_distributes ca.2 as cs.1 cs.2 (by rw [hcs]) u
        simp only [Node.fromIoList, hca, hcs, exceptOkBind, exceptPureEq,
          Except.ok.injEq, Prod.mk.injEq] at h
        obtain ⟨ht, hm⟩ := h
        subst ht
        subst hm
        simp only [uuidInList, nodeParamsAtList, Bool.or_eq_true, Bool.or_eq_false_iff]
        constructor
        · rintro (hin | hin)
          · obtain ⟨h1, h2⟩ := hna.1 hin
            by_cases hin2 : uuidInList u as = true
            · obtain ⟨h3, h4⟩ := hns.1 hin2
              rw [h1, h3, h2]
              simp [h4]
            · obtain ⟨h3, h4⟩ := hns.2 (Bool.not_eq_true _ ▸ hin2)
              rw [h1, h3, h4, h2]
              simp
          · obtain ⟨h3, h4⟩ := hns.1 hin
            by_cases hin1 : uuidInNode u a = true
            · obtain ⟨h1, h2⟩ := hna.1 hin1
              rw [h1, h3, h2]
              simp [h4]
            · obtain ⟨h1, h2⟩ := hna.2 (Bool.not_eq_true _ ▸ hin1)
              rw [h1, h3, h2]
              simp [h4, h2]
        · rintro ⟨hin1, hin2⟩
          obtain ⟨h1, h2⟩ := hna.2 hin1
          obtain ⟨h3, h4⟩ := hns.2 hin2
          rw [h1, h3, h4, h2]
          simp

end

/-- Claim C8: extraction removes and returns all bindings targeting the
given node id — a second call with the same id returns the empty list, a
call with a distinct id is unaffected by earlier extractions, and during
node-tree construction every uuid occurring in the tree receives exactly the
map's binding list for it (each binding moves to exactly one node, the map
entry being emptied). -/
theorem takeParams_exactly_once :
    (∀ (m : ParamMap) (n : Uuid),
      ((m.takeParamsAffectingNode n).2.takeParamsAffectingNode n).1 = []) ∧
    (∀ (m : ParamMap) (n k : Uuid), n ≠ k →
      ((m.takeParamsAffectingNode n).2.takeParamsAffectingNode k).1 =
        (m.takeParamsAffectingNode k).1) ∧
    (∀ (m : ParamMap) (io : IoNode) (t : Node) (m' : ParamMap),
      Node.fromIo m io = .ok (t, m') → ∀ u : Uuid, uuidInNode u io = true →
        nodeParamsAt u t = m.map u ∧ m'.map u = []) := by
  refine ⟨fun m n => ?_, fun m n k h => ?_, fun m io t m' h u hu =>
    (fromIo_distributes m io t m' h u).1 hu⟩
  · rw [take_fst, take_same]
  · rw [take_fst, take_fst, take_other m (Ne.symm h)]

/-- A one-entry parameter map used by the C8 witness. -/
def c8Map : ParamMap :=
  ParamMap.empty.insert 5 ⟨.param1D ⟨⟨0, 1, [0, 1]⟩, 0⟩, .zSort, [[1, 2]]⟩

/-- Witness for C8 at a concrete one-entry map and a concrete one-node
tree. -/
theorem takeParams_exactly_once_witness :
    ((c8Map.takeParamsAffectingNode 5).2.takeParamsAffectingNode 5).1 = [] ∧
    ((c8Map.takeParamsAffectingNode 5).2.takeParamsAffectingNode 6).1 =
      (c8Map.takeParamsAffectingNode 6).1 ∧
    ∃ r, Node.fromIo c8Map (.mk .node 5 "n" 0 IoTransform.new false []) = .ok r ∧
      nodeParamsAt 5 r.1 = c8Map.map 5 := by
  refine ⟨takeParams_exactly_once.1 c8Map 5,
    takeParams_exactly_once.2.1 c8Map 5 6 (by decide), ?_⟩
  obtain ⟨t, m', hr⟩ : ∃ t m',
      Node.fromIo c8Map (.mk .node 5 "n" 0 IoTransform.new false []) = .ok (t, m') :=
    ⟨_, _, rfl⟩
  refine ⟨(t, m'), hr, ?_⟩
  exact (takeParams_exactly_once.2.2 c8Map _ t m' hr 5 (by decide)).1

/-! ### Claim C4 — the returned sequence is Z-descending and stable -/

/-- On rationals, the non-strict total ordering is the usual `≤`. -/
theorem totalCmp_num_not_gt {x y : ℚ} :
    F.totalCmp (.num x) (.num y) ≠ .gt ↔ x ≤ y := by
  simp only [F.totalCmp]
  split_ifs with h1 h2
  · exact ⟨fun _ => le_of_lt h1, fun _ => by decide⟩
  · exact ⟨fun _ => le_of_eq h2, fun _ => by decide⟩
  · exact ⟨fun h => absurd rfl h, fun hle => absurd (hle.lt_of_ne h2) h1⟩

/-- In the model the total ordering compares equal exactly on equal values. -/
theorem totalCmp_eq_iff {a b : F} : F.totalCmp a b = .eq ↔ a = b := by
  cases a <;> cases b
  · simp [F.totalCmp]
  · simp [F.totalCmp]
  · simp [F.totalCmp]
  · rename_i x y
    simp only [F.totalCmp, F.num.injEq]
    split_ifs with h1 h2
    · exact ⟨fun h => (nomatch h), fun h => absurd (h ▸ h1) (lt_irrefl y)⟩
    · exact ⟨fun _ => h2, fun _ => rfl⟩
    · exact ⟨fun h => (nomatch h), fun h => absurd h h2⟩

/-- The non-strict total ordering is transitive. -/
theorem totalCmp_not_gt_trans {a b c : F} (hab : F.totalCmp a b ≠ .gt)
    (hbc : F.totalCmp b c ≠ .gt) : F.totalCmp a c ≠ .gt := by
  cases a with
  | nan =>
    cases b with
    | nan => exact hbc
    | num y => exact absurd rfl hab
  | num x =>
    cases c with
    | nan => simp [F.totalCmp]
    | num z =>
      cases b with
      | nan => exact absurd rfl hbc
      | num y =>
        rw [totalCmp_num_not_gt] at hab hbc ⊢
        exact le_trans hab hbc

/-- The non-strict total ordering is total. -/
theorem totalCmp_not_gt_total (a b : F) :
    F.totalCmp a b ≠ .gt ∨ F.totalCmp b a ≠ .gt := by
  cases a with
  | nan =>
    cases b with
    | nan => exact Or.inl (by simp [F.totalCmp])
    | num y => exact Or.inr (by simp [F.totalCmp])
  | num x =>
    cases b with
    | nan => exact Or.inl (by simp [F.totalCmp])
    | num y =>
      rcases le_total x y with h | h
      · exact Or.inl (totalCmp_num_not_gt.mpr h)
      · exact Or.inr (totalCmp_num_not_gt.mpr h)

/-- The sort comparison in Boolean form. -/
theorem cmdLe_iff {a b : RenderCommand} :
    cmdLe a b = true ↔ F.totalCmp (F.neg a.zsort) (F.neg b.zsort) ≠ .gt := by
  rw [cmdLe]
  cases hc : F.totalCmp (F.neg a.zsort) (F.neg b.zsort) <;>
    simp [hc]

/-- The sort comparison is transitive. -/
theorem cmdLe_trans (a b c : RenderCommand) (hab : cmdLe a b) (hbc : cmdLe b c) :
    cmdLe a c := by
  rw [cmdLe_iff] at hab hbc ⊢
  exact totalCmp_not_gt_trans hab hbc

/-- The sort comparison is total. -/
theorem cmdLe_total (a b : RenderCommand) : cmdLe a b || cmdLe b a := by
  rcases totalCmp_not_gt_total (F.neg a.zsort) (F.neg b.zsort) with h | h
  · rw [Bool.or_eq_true, cmdLe_iff]
    exact Or.inl h
  · rw [Bool.or_eq_true, cmdLe_iff, cmdLe_iff]
    exact Or.inr h

/-- The total ordering is reflexive. -/
theorem totalCmp_self (x : F) : F.totalCmp x x = .eq := by
  cases x <;> simp [F.totalCmp]

/-- Commands in the same Z class are mutually tied under the sort
comparison. -/
theorem cmdLe_of_class {k : F} {a b : RenderCommand}
    (ha : F.totalCmp a.zsort k = .eq) (hb : F.totalCmp b.zsort k = .eq) :
    cmdLe a b = true := by
  rw [cmdLe_iff, totalCmp_eq_iff.mp ha, totalCmp_eq_iff.mp hb, totalCmp_self]
  intro h
  cases h

/-- For non-NaN Z values the sort comparison is the IEEE `>=` on the
original (un-negated) Z. -/
theorem cmdLe_nonNaN {a b : RenderCommand} (h : cmdLe a b = true)
    (ha : a.zsort.isNaN = false) (hb : b.zsort.isNaN = false) :
    b.zsort.le a.zsort = true := by
  rw [cmdLe_iff] at h
  cases hza : a.zsort with
  | nan => rw [hza] at ha; simp [F.isNaN] at ha
  | num x =>
    cases hzb : b.zsort with
    | nan => rw [hzb] at hb; simp [F.isNaN] at hb
    | num y =>
      rw [hza, hzb] at h
      simp only [F.neg] at h
      rw [totalCmp_num_not_gt] at h
      simp only [F.le, decide_eq_true_eq]
      linarith

/-- Claim C4: the sequence returned by a single `update` call is sorted
Z-descending under the total ordering of the negated Z (for adjacent
commands with non-NaN Z this is the plain `a.zsort >= b.zsort`), and the
sort is stable: commands in the same Z class keep the order they had in the
unsorted buffer (previous contents followed by this frame's pre-order
traversal). -/
theorem update_zsort_descending (e : PuppetEngine) (delta : Nat)
    (rt : Node × List RenderCommand) (h0 : e.rootNode.update delta = some rt)
    (r : List RenderCommand × PuppetEngine) (h : e.update delta = some r) :
    List.Pairwise (fun a b => cmdLe a b = true) r.1 ∧
    (∀ (pre post : List RenderCommand) (a b : RenderCommand),
      r.1 = pre ++ a :: b :: post → a.zsort.isNaN = false → b.zsort.isNaN = false →
      b.zsort.le a.zsort = true) ∧
    (∀ k : F, r.1.filter (fun c => decide (F.totalCmp c.zsort k = Ordering.eq)) =
      (e.renderBuffer.commands ++ rt.2).filter
        (fun c => decide (F.totalCmp c.zsort k = Ordering.eq))) := by
  simp only [PuppetEngine.update, h0, Option.pure_def, Option.bind_eq_bind,
    Option.some_bind, Option.some.injEq] at h
  subst h
  simp only [RenderBuffer.finish]
  have hsorted : ((e.renderBuffer.commands ++ rt.2).mergeSort cmdLe).Pairwise
      (fun a b => cmdLe a b = true) :=
    List.sorted_mergeSort cmdLe_trans cmdLe_total (e.renderBuffer.commands ++ rt.2)
  refine ⟨hsorted, ?_, ?_⟩
  · intro pre post a b heq ha hb
    have hsub : List.Sublist [a, b] ((e.renderBuffer.commands ++ rt.2).mergeSort cmdLe) := by
      rw [heq]
      exact List.Sublist.trans
        (List.Sublist.cons₂ a (List.Sublist.cons₂ b (List.nil_sublist post)))
        (List.sublist_append_right pre _)
    have hab := (List.pairwise_cons.mp (hsorted.sublist hsub)).1 b (by simp)
    exact cmdLe_nonNaN hab ha hb
  · intro k
    set p : RenderCommand → Bool := fun c => decide (F.totalCmp c.zsort k = Ordering.eq)
    set pre := e.renderBuffer.commands ++ rt.2
    have hmemp : ∀ c ∈ pre.filter p, p c = true := fun c hc => List.of_mem_filter hc
    have hpw : (pre.filter p).Pairwise (fun a b => cmdLe a b = true) :=
      List.pairwise_of_forall_mem_list (fun a ha b hb =>
        cmdLe_of_class (of_decide_eq_true (hmemp a ha)) (of_decide_eq_true (hmemp b hb)))
    have hsub : List.Sublist (pre.filter p) (pre.mergeSort cmdLe) :=
      List.sublist_mergeSort cmdLe_trans cmdLe_total hpw (List.filter_sublist pre)
    have hsub2 : List.Sublist (pre.filter p) ((pre.mergeSort cmdLe).filter p) := by
      have hff := hsub.filter p
      rwa [List.filter_eq_self.mpr hmemp] at hff
    have hperm : List.Perm ((pre.mergeSort cmdLe).filter p) (pre.filter p) :=
      (List.mergeSort_perm pre cmdLe).filter p
    exact (hsub2.eq_of_length hperm.symm.length_eq).symm

/-- A two-node engine used by the C4 witness. -/
def c4Engine : PuppetEngine :=
  ⟨.mk false 1 [.mk false 2 [] [] Transform.identity 2 Transform.identity 2 false]
    [] Transform.identity 1 Transform.identity 1 false, ⟨[]⟩⟩

/-- Witness for C4 at a concrete two-node engine. -/
theorem update_zsort_descending_witness :
    ∃ rt r, c4Engine.rootNode.update 0 = some rt ∧ c4Engine.update 0 = some r ∧
      List.Pairwise (fun a b => cmdLe a b = true) r.1 := by
  refine ⟨_, _, rfl, rfl, ?_⟩
  exact (update_zsort_descending c4Engine 0 _ rfl _ rfl).1

/-! ### Claim C5 — interpolation coordinate mapping

`ParamAxis::interp` is analysed through its two stages: the clamp-and-remap
of the raw value (`normExpr`) and the breakpoint search on the normalized
value (`interpCore`); `interp_decomp` states that `interp` is exactly their
composition. -/

/-- The normalization step of `ParamAxis::interp`: clamp into `[min, max]`
and remap into `[0, 1]`. -/
def normExpr (a : ParamAxis) (value : F) : F :=
  (((value.fmin a.max).fmax a.min).sub a.min).div (a.max.sub a.min)

/-- The breakpoint-search step of `ParamAxis::interp` on the normalized
value. -/
def interpCore (a : ParamAxis) (v : F) : Option Interp :=
  let largerIdx := (a.axisPoints.findIdx? (fun p => p.gt v)).getD (a.axisPoints.length - 1)
  let smallerIdx := largerIdx - 1
  match a.axisPoints.get? largerIdx, a.axisPoints.get? smallerIdx with
  | some largerVal, some smallerVal =>
    some ⟨smallerIdx, (v.sub smallerVal).div (largerVal.sub smallerVal)⟩
  | _, _ => none

/-- `interp` is the breakpoint search applied to the normalized value. -/
theorem interp_decomp (a : ParamAxis) (value : F) :
    a.interp value = interpCore a (normExpr a value) := rfl

/-- IEEE equality against a number pins the value down in the model. -/
theorem beq_num_iff {x : F} {q : ℚ} : F.beq x (F.num q) = true ↔ x = F.num q := by
  cases x <;> simp [F.beq]

/-- Inversion of a successful `ParamAxis::lower`: the accepted axis holds
the given data and all validation checks passed. -/
theorem lower_ok_inv {name : String} {pts : List F} {mn mx : F} {ax : ParamAxis}
    (h : ParamAxis.lower name pts mn mx = .ok ax) :
    ax = ⟨mn, mx, pts⟩ ∧ pts ≠ [] ∧ pts.head? = some (F.num 0) ∧
      pts.getLast? = some (F.num 1) ∧ isSortedTotal pts = true ∧ mn.gt mx = false := by
  unfold ParamAxis.lower at h
  split_ifs at h with h1 h2 h3 h4
  simp only [Except.ok.injEq] at h
  simp only [Bool.not_eq_true, Bool.not_eq_false', Bool.and_eq_true] at h1 h2 h3 h4
  refine ⟨h.symm, fun hh => by rw [hh] at h1; simp at h1, ?_, ?_, h3, h4⟩
  · obtain ⟨ha, -⟩ := h2
    cases hh : pts.head? with
    | none => rw [hh] at ha; cases ha
    | some x =>
      rw [hh] at ha
      rw [beq_num_iff.mp ha]
      norm_num
  · obtain ⟨-, hb⟩ := h2
    cases hh : pts.getLast? with
    | none => rw [hh] at hb; cases hb
    | some x =>
      rw [hh] at hb
      rw [beq_num_iff.mp hb]
      norm_num

/-- In a totally sorted list whose last element is a number, every element
is a number (a NaN anywhere would be above the elements after it). -/
theorem sortedTotal_all_num : ∀ (l : List F), isSortedTotal l = true →
    (∃ q, l.getLast? = some (F.num q)) → ∀ x ∈ l, ∃ r, x = F.num r
  | [], _, _, x, hx => by cases hx
  | [a], _, hq, x, hx => by
    obtain ⟨q, hq⟩ := hq
    simp only [List.getLast?_singleton, Option.some.injEq] at hq
    rcases List.mem_singleton.mp hx with rfl
    exact ⟨q, hq⟩
  | a :: b :: rest, hs, hq, x, hx => by
    have hs' : isSortedTotal (b :: rest) = true ∧ F.totalCmp a b ≠ .gt := by
      by_cases hg : F.totalCmp a b = .gt
      · simp only [isSortedTotal, if_pos hg] at hs
        exact absurd hs (by decide)
      · simp only [isSortedTotal, if_neg hg] at hs
        exact ⟨hs, hg⟩
    obtain ⟨q, hq⟩ := hq
    have hqtail : (b :: rest).getLast? = some (F.num q) := by
      rw [← hq]
      rfl
    rcases List.mem_cons.mp hx with rfl | hx'
    · have hb := sortedTotal_all_num (b :: rest) hs'.1 ⟨q, hqtail⟩ b (List.mem_cons_self b rest)
      obtain ⟨r, hr⟩ := hb
      subst hr
      cases x with
      | nan => exact absurd rfl hs'.2
      | num s => exact ⟨s, rfl⟩
    · exact sortedTotal_all_num (b :: rest) hs'.1 ⟨q, hqtail⟩ x hx'

/-- In a totally sorted list, every element is below or equal to the last
element under the total ordering. -/
theorem sortedTotal_le_last : ∀ (l : List F), isSortedTotal l = true →
    ∀ y, l.getLast? = some y → ∀ x ∈ l, F.totalCmp x y ≠ .gt
  | [], _, y, hy, x, hx => by cases hx
  | [a], _, y, hy, x, hx => by
    simp only [List.getLast?_singleton, Option.some.injEq] at hy
    rcases List.mem_singleton.mp hx with rfl
    rw [← hy, totalCmp_self]
    intro hh
    cases hh
  | a :: b :: rest, hs, y, hy, x, hx => by
    have hs' : isSortedTotal (b :: rest) = true ∧ F.totalCmp a b ≠ .gt := by
      by_cases hg : F.totalCmp a b = .gt
      · simp only [isSortedTotal, if_pos hg] at hs
        exact absurd hs (by decide)
      · simp only [isSortedTotal, if_neg hg] at hs
        exact ⟨hs, hg⟩
    have hytail : (b :: rest).getLast? = some y := by
      rw [← hy]
      rfl
    rcases List.mem_cons.mp hx with rfl | hx'
    · have hby := sortedTotal_le_last (b :: rest) hs'.1 y hytail b (List.mem_cons_self b rest)
      exact totalCmp_not_gt_trans hs'.2 hby
    · exact sortedTotal_le_last (b :: rest) hs'.1 y hytail x hx'

/-- The index found by `findIdx?` is minimal among indices whose element
satisfies the predicate. -/
theorem findIdx?_le_of_true {l : List F} {p : F → Bool} {j k : Nat} {x : F}
    (hj : l.findIdx? p = some j) (hk : l.get? k = some x) (hx : p x = true) : j ≤ k := by
  obtain ⟨hlen, -, hmin⟩ := List.findIdx?_eq_some_iff_getElem.mp hj
  by_contra hlt
  push_neg at hlt
  rw [List.get?_eq_getElem?] at hk
  obtain ⟨hklen, hkeq⟩ := List.getElem?_eq_some_iff.mp hk
  have := hmin k hlt
  rw [hkeq] at this
  exact this hx

/-- Division of numbers in the model, for a nonzero divisor. -/
theorem fdiv_num {a c : ℚ} (h : c ≠ 0) : (F.num a).div (F.num c) = F.num (a / c) := by
  simp [F.div, h]

/-- Subtraction of numbers in the model. -/
theorem fsub_num (a c : ℚ) : (F.num a).sub (F.num c) = F.num (a - c) := rfl

/-- The Rust `>` on numbers in the model. -/
theorem fgt_num_iff {a c : ℚ} : (F.num a).gt (F.num c) = true ↔ c < a := by
  simp [F.gt, F.lt]

/-- Evaluation of the normalization step: for `min < max` the result is a
number in `[0, 1]`, given by the clamp-and-remap formula for number inputs
and equal to 1 for a NaN input (`f32::min`/`f32::max` return the other
operand, so a NaN raw value clamps to `max`). -/
theorem normExpr_num (ax : ParamAxis) (qmin qmax : ℚ) (hmn : ax.min = F.num qmin)
    (hmx : ax.max = F.num qmax) (hlt : qmin < qmax) (v : F) :
    ∃ n : ℚ, normExpr ax v = F.num n ∧ 0 ≤ n ∧ n ≤ 1 ∧
      (∀ q, v = F.num q → n = (max (min q qmax) qmin - qmin) / (qmax - qmin)) ∧
      (v = F.nan → n = 1) := by
  have hne : qmax - qmin ≠ 0 := sub_ne_zero.mpr (ne_of_gt hlt)
  have hpos : 0 < qmax - qmin := sub_pos.mpr hlt
  unfold normExpr
  rw [hmn, hmx]
  cases v with
  | nan =>
    have h2 : (F.fmin F.nan (F.num qmax)).fmax (F.num qmin) = F.num (max qmax qmin) := rfl
    rw [h2, max_eq_left (le_of_lt hlt), fsub_num, fdiv_num hne, div_self hne]
    exact ⟨1, rfl, by norm_num, le_refl 1, fun q hq => (nomatch hq), fun _ => rfl⟩
  | num q =>
    have h2 : ((F.num q).fmin (F.num qmax)).fmax (F.num qmin) =
        F.num (max (min q qmax) qmin) := rfl
    rw [h2, fsub_num, fsub_num, fdiv_num hne]
    refine ⟨_, rfl, ?_, ?_, fun r hr => by cases hr; rfl, fun hq => (nomatch hq)⟩
    · apply div_nonneg _ (le_of_lt hpos)
      have := le_max_right (min q qmax) qmin
      linarith
    · rw [div_le_one hpos]
      have h6 : min q qmax ≤ qmax := min_le_right q qmax
      have h7 : max (min q qmax) qmin ≤ qmax := max_le h6 (le_of_lt hlt)
      linarith

/-- Characterization of the breakpoint search on a valid axis for a
normalized rational input in `[0, 1]`: it selects a bucket `j` with
breakpoint values `s ≤ n ≤ l`, `s < l`, and returns the fractional distance
`(n - s) / (l - s)`; every breakpoint up to index `j` is at most `n`. -/
theorem interpCore_spec (ax : ParamAxis)
    (hnum : ∀ x ∈ ax.axisPoints, ∃ r, x = F.num r)
    (hlen : 2 ≤ ax.axisPoints.length)
    (hhead : ax.axisPoints.head? = some (F.num 0))
    (hlast : ax.axisPoints.getLast? = some (F.num 1))
    (hpen : ax.axisPoints.get? (ax.axisPoints.length - 2) ≠ some (F.num 1))
    (n : ℚ) (hn0 : 0 ≤ n) (hn1 : n ≤ 1) :
    ∃ (j : Nat) (s l : ℚ),
      ax.axisPoints.get? j = some (F.num s) ∧
      ax.axisPoints.get? (j + 1) = some (F.num l) ∧
      s ≤ n ∧ n ≤ l ∧ s < l ∧ j ≤ ax.axisPoints.length - 2 ∧
      interpCore ax (F.num n) = some ⟨j, F.num ((n - s) / (l - s))⟩ ∧
      (∀ i x, i ≤ j → ax.axisPoints.get? i = some x → x.gt (F.num n) = false) := by
  have h00 : ax.axisPoints.get? 0 = some (F.num 0) := by
    rw [List.get?_eq_getElem?, ← List.head?_eq_getElem?]
    exact hhead
  have hlast' : ax.axisPoints.get? (ax.axisPoints.length - 1) = some (F.num 1) := by
    rw [← List.getLast?_eq_get?]
    exact hlast
  cases hf : ax.axisPoints.findIdx? (fun p => p.gt (F.num n)) with
  | some jdx =>
    obtain ⟨hjlen, hptrue, hmin⟩ := List.findIdx?_eq_some_iff_getElem.mp hf
    have hj1 : 1 ≤ jdx := by
      rcases Nat.eq_zero_or_pos jdx with rfl | h
      · obtain ⟨hb, he⟩ := List.getElem?_eq_some_iff.mp
          (List.get?_eq_getElem? _ _ ▸ h00)
        rw [he] at hptrue
        rw [fgt_num_iff] at hptrue
        linarith
      · exact h
    have hjj : jdx - 1 + 1 = jdx := by omega
    have hjlt : jdx - 1 < ax.axisPoints.length := by omega
    have hxs0 : ax.axisPoints.get? (jdx - 1) = some ax.axisPoints[jdx - 1] := by
      rw [List.get?_eq_getElem?]
      exact List.getElem?_eq_some_iff.mpr ⟨hjlt, rfl⟩
    obtain ⟨s, hs⟩ := hnum _ (List.get?_mem hxs0)
    have hxs : ax.axisPoints.get? (jdx - 1) = some (F.num s) := by rw [hxs0, hs]
    have hxl0 : ax.axisPoints.get? jdx = some ax.axisPoints[jdx] := by
      rw [List.get?_eq_getElem?]
      exact List.getElem?_eq_some_iff.mpr ⟨hjlen, rfl⟩
    obtain ⟨l, hl⟩ := hnum _ (List.get?_mem hxl0)
    have hxl : ax.axisPoints.get? jdx = some (F.num l) := by rw [hxl0, hl]
    have hnl : n < l := by
      rw [hl] at hptrue
      exact fgt_num_iff.mp hptrue
    have hsn : s ≤ n := by
      have hmj := hmin (jdx - 1) (by omega)
      rw [hs] at hmj
      rw [Bool.not_eq_true] at hmj
      by_contra hc
      push_neg at hc
      rw [fgt_num_iff.mpr hc] at hmj
      cases hmj
    have hsl : s < l := lt_of_le_of_lt hsn hnl
    have hcore : interpCore ax (F.num n) = some ⟨jdx - 1, F.num ((n - s) / (l - s))⟩ := by
      unfold interpCore
      rw [hf]
      simp only [Option.getD_some]
      rw [hxl, hxs]
      show some (⟨jdx - 1, ((F.num n).sub (F.num s)).div ((F.num l).sub (F.num s))⟩ :
        Interp) = _
      rw [fsub_num, fsub_num, fdiv_num (sub_ne_zero.mpr (ne_of_gt hsl))]
    refine ⟨jdx - 1, s, l, hxs, by rw [hjj]; exact hxl, hsn, le_of_lt hnl, hsl, by omega,
      hcore, ?_⟩
    intro i x hi hix
    have hmi := hmin i (by omega)
    obtain ⟨hb, he⟩ := List.getElem?_eq_some_iff.mp (List.get?_eq_getElem? _ _ ▸ hix)
    rw [he] at hmi
    rw [Bool.not_eq_true] at hmi
    exact hmi
  | none =>
    have hall := List.findIdx?_eq_none_iff.mp hf
    have hjj : ax.axisPoints.length - 2 + 1 = ax.axisPoints.length - 1 := by omega
    have hjlt : ax.axisPoints.length - 2 < ax.axisPoints.length := by omega
    have hxs0 : ax.axisPoints.get? (ax.axisPoints.length - 2) =
        some ax.axisPoints[ax.axisPoints.length - 2] := by
      rw [List.get?_eq_getElem?]
      exact List.getElem?_eq_some_iff.mpr ⟨hjlt, rfl⟩
    obtain ⟨s, hs⟩ := hnum _ (List.get?_mem hxs0)
    have hxs : ax.axisPoints.get? (ax.axisPoints.length - 2) = some (F.num s) := by
      rw [hxs0, hs]
    have hsn : s ≤ n := by
      have hf' := hall _ (List.get?_mem hxs)
      by_contra hc
      push_neg at hc
      rw [fgt_num_iff.mpr hc] at hf'
      cases hf'
    have hs1 : s ≠ 1 := by
      intro hc
      rw [hc] at hxs
      exact hpen hxs
    have hn1' : n = 1 := by
      have hf' := hall _ (List.get?_mem hlast')
      by_contra hc
      have hlt : n < 1 := lt_of_le_of_ne hn1 hc
      rw [fgt_num_iff.mpr hlt] at hf'
      cases hf'
    have hsl : s < 1 := lt_of_le_of_ne (by linarith) hs1
    have hcore : interpCore ax (F.num n) =
        some ⟨ax.axisPoints.length - 2, F.num ((n - s) / (1 - s))⟩ := by
      unfold interpCore
      rw [hf]
      simp only [Option.getD_none]
      have hidx : ax.axisPoints.length - 1 - 1 = ax.axisPoints.length - 2 := by omega
      rw [hidx, hlast', hxs]
      show some (⟨ax.axisPoints.length - 2,
        ((F.num n).sub (F.num s)).div ((F.num 1).sub (F.num s))⟩ : Interp) = _
      rw [fsub_num, fsub_num, fdiv_num (sub_ne_zero.mpr (ne_of_gt hsl))]
    refine ⟨ax.axisPoints.length - 2, s, 1, hxs, by rw [hjj]; exact hlast', hsn, hn1,
      by linarith, le_refl _, hcore, ?_⟩
    intro i x hi hix
    exact hall _ (List.get?_mem hix)

/-- The Rust `<=` on numbers in the model. -/
theorem fle_num_iff {a c : ℚ} : (F.num a).le (F.num c) = true ↔ a ≤ c := by
  simp [F.le]

/-- A true `<` pins both operands down to numbers. -/
theorem flt_true_elim {a b : F} (h : F.lt a b = true) :
    ∃ p q, a = F.num p ∧ b = F.num q ∧ p < q := by
  cases a with
  | nan => exact (nomatch h)
  | num p =>
    cases b with
    | nan => exact (nomatch h)
    | num q =>
      simp only [F.lt, decide_eq_true_eq] at h
      exact ⟨p, q, rfl, rfl, h⟩

/-- A true `<=` pins both operands down to numbers. -/
theorem fle_true_elim {a b : F} (h : F.le a b = true) :
    ∃ p q, a = F.num p ∧ b = F.num q ∧ p ≤ q := by
  cases a with
  | nan => exact (nomatch h)
  | num p =>
    cases b with
    | nan => exact (nomatch h)
    | num q =>
      simp only [F.le, decide_eq_true_eq] at h
      exact ⟨p, q, rfl, rfl, h⟩

/-- The breakpoint search at normalized value 0 on a valid axis whose second
breakpoint is nonzero: bucket 0, distance 0. -/
theorem interpCore_at_zero (ax : ParamAxis)
    (hnum : ∀ x ∈ ax.axisPoints, ∃ r, x = F.num r)
    (hlen : 2 ≤ ax.axisPoints.length)
    (hhead : ax.axisPoints.head? = some (F.num 0))
    (hsort : isSortedTotal ax.axisPoints = true)
    (h2nd : ax.axisPoints.get? 1 ≠ some (F.num 0)) :
    interpCore ax (F.num 0) = some ⟨0, F.num 0⟩ := by
  obtain ⟨p0, tl, hpts⟩ : ∃ p0 tl, ax.axisPoints = p0 :: tl := by
    cases hc : ax.axisPoints with
    | nil => rw [hc] at hlen; simp at hlen
    | cons a b => exact ⟨a, b, rfl⟩
  obtain ⟨p1, rest, htl⟩ : ∃ p1 rest, tl = p1 :: rest := by
    cases hc : tl with
    | nil => rw [hc] at hpts; rw [hpts] at hlen; simp at hlen
    | cons a b => exact ⟨a, b, rfl⟩
  subst htl
  have hp0 : p0 = F.num 0 := by
    rw [hpts] at hhead
    simpa using hhead
  obtain ⟨q1, hq1⟩ := hnum p1 (by rw [hpts]; exact List.mem_cons_of_mem p0 (List.mem_cons_self p1 rest))
  have hq1ne : q1 ≠ 0 := by
    intro hc
    apply h2nd
    rw [hpts, hq1, hc]
    rfl
  have hq1pos : 0 < q1 := by
    rw [hpts, hp0, hq1] at hsort
    have hng : F.totalCmp (F.num 0) (F.num q1) ≠ .gt := by
      intro hcg
      simp only [isSortedTotal, if_pos hcg] at hsort
      exact absurd hsort (by decide)
    exact lt_of_le_of_ne (totalCmp_num_not_gt.mp hng) (Ne.symm hq1ne)
  have hgt0 : (F.num 0).gt (F.num 0) = false := by simp [F.gt, F.lt]
  have hgt1 : (F.num q1).gt (F.num 0) = true := fgt_num_iff.mpr hq1pos
  have hfind : ax.axisPoints.findIdx? (fun p => p.gt (F.num 0)) = some 1 := by
    rw [hpts, hp0, hq1]
    simp [List.findIdx?_cons, hgt0, hgt1]
  unfold interpCore
  rw [hfind]
  simp only [Option.getD_some]
  have hg1 : ax.axisPoints.get? 1 = some (F.num q1) := by rw [hpts, hq1]; rfl
  have hg0 : ax.axisPoints.get? 0 = some (F.num 0) := by rw [hpts, hp0]; rfl
  rw [hg1]
  rw [show (1 : Nat) - 1 = 0 from rfl, hg0]
  show some (⟨0, ((F.num 0).sub (F.num 0)).div ((F.num q1).sub (F.num 0))⟩ : Interp) = _
  rw [fsub_num, fsub_num, fdiv_num (by simpa using hq1ne)]
  norm_num

/-- The breakpoint search at normalized value 1 on a valid axis whose
second-to-last breakpoint is not 1: the last bucket, distance 1. -/
theorem interpCore_at_one (ax : ParamAxis)
    (hnum : ∀ x ∈ ax.axisPoints, ∃ r, x = F.num r)
    (hlen : 2 ≤ ax.axisPoints.length)
    (hlast : ax.axisPoints.getLast? = some (F.num 1))
    (hub : ∀ x ∈ ax.axisPoints, x.gt (F.num 1) = false)
    (hpen : ax.axisPoints.get? (ax.axisPoints.length - 2) ≠ some (F.num 1)) :
    interpCore ax (F.num 1) = some ⟨ax.axisPoints.length - 2, F.num 1⟩ := by
  have hfind : ax.axisPoints.findIdx? (fun p => p.gt (F.num 1)) = none :=
    List.findIdx?_eq_none_iff.mpr hub
  have hlast' : ax.axisPoints.get? (ax.axisPoints.length - 1) = some (F.num 1) := by
    rw [← List.getLast?_eq_get?]
    exact hlast
  have hjlt : ax.axisPoints.length - 2 < ax.axisPoints.length := by omega
  have hxs0 : ax.axisPoints.get? (ax.axisPoints.length - 2) =
      some ax.axisPoints[ax.axisPoints.length - 2] := by
    rw [List.get?_eq_getElem?]
    exact List.getElem?_eq_some_iff.mpr ⟨hjlt, rfl⟩
  obtain ⟨s, hs⟩ := hnum _ (List.get?_mem hxs0)
  have hxs : ax.axisPoints.get? (ax.axisPoints.length - 2) = some (F.num s) := by
    rw [hxs0, hs]
  have hs1 : s ≠ 1 := by
    intro hc
    rw [hc] at hxs
    exact hpen hxs
  have hsle : s ≤ 1 := by
    have := hub _ (List.get?_mem hxs)
    by_contra hc
    push_neg at hc
    rw [fgt_num_iff.mpr hc] at this
    cases this
  have hsl : s < 1 := lt_of_le_of_ne hsle hs1
  unfold interpCore
  rw [hfind]
  simp only [Option.getD_none]
  have hidx : ax.axisPoints.length - 1 - 1 = ax.axisPoints.length - 2 := by omega
  rw [hidx, hlast', hxs]
  show some (⟨ax.axisPoints.length - 2,
    ((F.num 1).sub (F.num s)).div ((F.num 1).sub (F.num s))⟩ : Interp) = _
  rw [fsub_num, fdiv_num (sub_ne_zero.mpr (ne_of_gt hsl)), div_self
    (sub_ne_zero.mpr (ne_of_gt hsl))]

/-- Claim C5 (amended): for every axis accepted by construction whose min is
strictly below its max, whose second breakpoint is nonzero and whose
second-to-last breakpoint is not 1 (the counterexample shows degenerate
accepted axes violate the original claim), `interp` is non-decreasing in the
input (lexicographically on bucket and distance), the returned distance lies
in `[0, 1]`, `interp(min) = (0, 0.0)`, `interp(max) = (last bucket, 1.0)`,
and inputs below min or above max return exactly the results of min and max;
and the concrete scenario: on breakpoints `[0, 0.5, 1]` with min -1, max 1,
`interp(-0.5) = (0, 0.5)`, `interp(0) = (1, 0)`, `interp(1) = (1, 1)`. -/
theorem interp_valid_axis :
    (∀ (name : String) (pts : List F) (mn mx : F) (ax : ParamAxis),
      ParamAxis.lower name pts mn mx = .ok ax →
      mn.lt mx = true →
      pts.get? 1 ≠ some (F.num 0) →
      pts.get? (pts.length - 2) ≠ some (F.num 1) →
      ((∀ (v w : F) (iv iw : Interp), v.le w = true →
          ax.interp v = some iv → ax.interp w = some iw →
          iv.startIndex < iw.startIndex ∨
            (iv.startIndex = iw.startIndex ∧ iv.dist.le iw.dist = true)) ∧
        (∀ (v : F) (i : Interp), ax.interp v = some i →
          (0 : F).le i.dist = true ∧ i.dist.le (1 : F) = true) ∧
        ax.interp mn = some ⟨0, F.num 0⟩ ∧
        ax.interp mx = some ⟨pts.length - 2, F.num 1⟩ ∧
        (∀ v : F, v.lt mn = true → ax.interp v = ax.interp mn) ∧
        (∀ v : F, mx.lt v = true → ax.interp v = ax.interp mx))) ∧
    ((⟨F.num (-1), F.num 1, [F.num 0, F.num (1/2), F.num 1]⟩ : ParamAxis).interp
        (F.num (-1/2)) = some ⟨0, F.num (1/2)⟩ ∧
      (⟨F.num (-1), F.num 1, [F.num 0, F.num (1/2), F.num 1]⟩ : ParamAxis).interp
        (F.num 0) = some ⟨1, F.num 0⟩ ∧
      (⟨F.num (-1), F.num 1, [F.num 0, F.num (1/2), F.num 1]⟩ : ParamAxis).interp
        (F.num 1) = some ⟨1, F.num 1⟩) := by
  constructor
  · intro name pts mn mx ax hok hlt h2nd hpen2
    obtain ⟨hax, hne, hhead, hlast, hsort, hgt⟩ := lower_ok_inv hok
    subst hax
    obtain ⟨qmin, qmax, hmneq, hmxeq, hqlt⟩ := flt_true_elim hlt
    subst hmneq
    subst hmxeq
    have hlen2 : 2 ≤ pts.length := by
      cases pts with
      | nil => exact absurd rfl hne
      | cons p0 tl =>
        cases tl with
        | nil =>
          simp only [List.head?_cons, Option.some.injEq] at hhead
          have hl1 : ([p0] : List F).getLast? = some p0 := rfl
          rw [hl1] at hlast
          simp only [Option.some.injEq] at hlast
          rw [hhead] at hlast
          simp only [F.num.injEq] at hlast
          norm_num at hlast
        | cons p1 tl2 => simp only [List.length_cons]; omega
    have hnum := sortedTotal_all_num pts hsort ⟨1, hlast⟩
    have hub : ∀ x ∈ pts, x.gt (F.num 1) = false := by
      intro x hx
      obtain ⟨r, hr⟩ := hnum x hx
      subst hr
      have hr1 : r ≤ 1 :=
        totalCmp_num_not_gt.mp (sortedTotal_le_last pts hsort (F.num 1) hlast (F.num r) hx)
      cases hgtc : (F.num r).gt (F.num 1) with
      | false => rfl
      | true => exact absurd (fgt_num_iff.mp hgtc) (not_lt.mpr hr1)
    refine ⟨?_, ?_, ?_, ?_, ?_, ?_⟩
    · -- monotonicity
      intro v w iv iw hvw hv hw
      rw [interp_decomp] at hv hw
      obtain ⟨nv, hnveq, hnv0, hnv1, hformv, -⟩ :=
        normExpr_num ⟨F.num qmin, F.num qmax, pts⟩ qmin qmax rfl rfl hqlt v
      obtain ⟨nw, hnweq, hnw0, hnw1, hformw, -⟩ :=
        normExpr_num ⟨F.num qmin, F.num qmax, pts⟩ qmin qmax rfl rfl hqlt w
      rw [hnveq] at hv
      rw [hnweq] at hw
      have hmono : nv ≤ nw := by
        obtain ⟨a, b, hva, hwb, hab⟩ := fle_true_elim hvw
        rw [hformv a hva, hformw b hwb]
        have hden : 0 < qmax - qmin := sub_pos.mpr hqlt
        rw [div_le_div_iff_of_pos_right hden]
        have h1 : min a qmax ≤ min b qmax := min_le_min hab (le_refl qmax)
        have h2 : max (min a qmax) qmin ≤ max (min b qmax) qmin :=
          max_le_max h1 (le_refl qmin)
        linarith
      obtain ⟨jv, sv, lv, hgsv, hglv, hsvn, hnlv, hsvlv, hjv, hcorev, hminv⟩ :=
        interpCore_spec ⟨F.num qmin, F.num qmax, pts⟩ hnum hlen2 hhead hlast hpen2 nv hnv0 hnv1
      obtain ⟨jw, sw, lw, hgsw, hglw, hswn, hnlw, hswlw, hjw, hcorew, hminw⟩ :=
        interpCore_spec ⟨F.num qmin, F.num qmax, pts⟩ hnum hlen2 hhead hlast hpen2 nw hnw0 hnw1
      rw [hcorev] at hv
      rw [hcorew] at hw
      have hiv : iv = ⟨jv, F.num ((nv - sv) / (lv - sv))⟩ := by
        injection hv with hv
        exact hv.symm
      have hiw : iw = ⟨jw, F.num ((nw - sw) / (lw - sw))⟩ := by
        injection hw with hw
        exact hw.symm
      subst hiv
      subst hiw
      by_cases hnn : nv = nw
      · subst hnn
        rw [hcorev] at hcorew
        injection hcorew with hcc
        rw [hcc]
        exact Or.inr ⟨rfl, fle_num_iff.mpr (le_refl _)⟩
      · have hnvw : nv < nw := lt_of_le_of_ne hmono hnn
        have hjvw : jv ≤ jw := by
          by_contra hc
          push_neg at hc
          have hjw1 : jw + 1 ≤ jv := hc
          have := hminv (jw + 1) (F.num lw) hjw1 hglw
          rw [Bool.eq_false_iff] at this
          have hlwnv : lw ≤ nv := by
            by_contra hc2
            push_neg at hc2
            exact this (fgt_num_iff.mpr hc2)
          linarith
        rcases lt_or_eq_of_le hjvw with hjlt | hjeq
        · exact Or.inl hjlt
        · subst hjeq
          rw [hgsv] at hgsw
          rw [hglv] at hglw
          injection hgsw with hgsw
          injection hglw with hgl
          simp only [F.num.injEq] at hgsw hgl
          subst hgsw
          subst hgl
          refine Or.inr ⟨rfl, fle_num_iff.mpr ?_⟩
          have hden : 0 < lv - sv := sub_pos.mpr hsvlv
          rw [div_le_div_iff_of_pos_right hden]
          linarith
    · -- distance range
      intro v i hi
      rw [interp_decomp] at hi
      obtain ⟨n, hneq, hn0, hn1, -, -⟩ := normExpr_num ⟨F.num qmin, F.num qmax, pts⟩ qmin qmax rfl rfl hqlt v
      rw [hneq] at hi
      obtain ⟨j, s, l, -, -, hsn, hnl, hsl, -, hcore, -⟩ :=
        interpCore_spec ⟨F.num qmin, F.num qmax, pts⟩ hnum hlen2 hhead hlast hpen2 n hn0 hn1
      rw [hcore] at hi
      injection hi with hi
      subst hi
      constructor
      · exact fle_num_iff.mpr (div_nonneg (by linarith) (by linarith))
      · exact fle_num_iff.mpr ((div_le_one (by linarith)).mpr (by linarith))
    · -- at min
      rw [interp_decomp]
      obtain ⟨n, hneq, hn0, hn1, hform, -⟩ :=
        normExpr_num ⟨F.num qmin, F.num qmax, pts⟩ qmin qmax rfl rfl hqlt (F.num qmin)
      have hnz : n = 0 := by
        rw [hform qmin rfl, min_eq_left (le_of_lt hqlt), max_self]
        simp
      rw [hneq, hnz]
      exact interpCore_at_zero ⟨F.num qmin, F.num qmax, pts⟩ hnum hlen2 hhead hsort h2nd
    · -- at max
      rw [interp_decomp]
      obtain ⟨n, hneq, hn0, hn1, hform, -⟩ :=
        normExpr_num ⟨F.num qmin, F.num qmax, pts⟩ qmin qmax rfl rfl hqlt (F.num qmax)
      have hno : n = 1 := by
        rw [hform qmax rfl, min_self, max_eq_left (le_of_lt hqlt)]
        exact div_self (sub_ne_zero.mpr (ne_of_gt hqlt))
      rw [hneq, hno]
      exact interpCore_at_one ⟨F.num qmin, F.num qmax, pts⟩ hnum hlen2 hlast hub hpen2
    · -- clamp below min
      intro v hv
      obtain ⟨a, qm, hva, hmm, haq⟩ := flt_true_elim hv
      injection hmm with hmm
      subst hva
      rw [interp_decomp, interp_decomp]
      obtain ⟨n1, hn1eq, -, -, hform1, -⟩ :=
        normExpr_num ⟨F.num qmin, F.num qmax, pts⟩ qmin qmax rfl rfl hqlt (F.num a)
      obtain ⟨n2, hn2eq, -, -, hform2, -⟩ :=
        normExpr_num ⟨F.num qmin, F.num qmax, pts⟩ qmin qmax rfl rfl hqlt (F.num qmin)
      rw [hn1eq, hn2eq]
      have he : n1 = n2 := by
        rw [hform1 a rfl, hform2 qmin rfl]
        subst hmm
        have h1 : min a qmax = a := min_eq_left (by linarith)
        have h2 : max a qmin = qmin := max_eq_right (le_of_lt haq)
        have h3 : min qmin qmax = qmin := min_eq_left (le_of_lt hqlt)
        rw [h1, h2, h3, max_self]
      rw [he]
    · -- clamp above max
      intro v hv
      obtain ⟨qm, b, hmm, hvb, hbq⟩ := flt_true_elim hv
      injection hmm with hmm
      subst hvb
      rw [interp_decomp, interp_decomp]
      obtain ⟨n1, hn1eq, -, -, hform1, -⟩ :=
        normExpr_num ⟨F.num qmin, F.num qmax, pts⟩ qmin qmax rfl rfl hqlt (F.num b)
      obtain ⟨n2, hn2eq, -, -, hform2, -⟩ :=
        normExpr_num ⟨F.num qmin, F.num qmax, pts⟩ qmin qmax rfl rfl hqlt (F.num qmax)
      rw [hn1eq, hn2eq]
      have he : n1 = n2 := by
        rw [hform1 b rfl, hform2 qmax rfl]
        subst hmm
        have h1 : min b qmax = qmax := min_eq_right (le_of_lt hbq)
        have h2 : min qmax qmax = qmax := min_self qmax
        rw [h1, h2]
      rw [he]
  · refine ⟨?_, ?_, ?_⟩ <;>
    · simp only [ParamAxis.interp, F.fmin, F.fmax, F.sub, F.div, F.gt, F.lt,
        List.findIdx?_cons]
      norm_num [List.findIdx?_cons]

/-- Counterexample to C5 as stated: three degenerate axes are accepted by
construction yet violate the claimed properties — with min = max the
distance is NaN and `interp(min) ≠ (0, 0.0)`; with a duplicated trailing
breakpoint `[0, 1, 1]` the distance at max is NaN (outside `[0, 1]`); with
a duplicated leading breakpoint `[0, 0, 1]` `interp(min)` lands in bucket 1,
not bucket 0. -/
theorem interp_degenerate_counterexample :
    (∃ ax, ParamAxis.lower ("p") [F.num 0, F.num 1] (F.num 0) (F.num 0) = .ok ax ∧
      ax.interp (F.num 0) = some ⟨0, F.nan⟩) ∧
    (∃ ax, ParamAxis.lower ("p") [F.num 0, F.num 1, F.num 1] (F.num 0) (F.num 1) = .ok ax ∧
      ax.interp (F.num 1) = some ⟨1, F.nan⟩ ∧
      (0 : F).le F.nan = false ∧ F.nan.le (1 : F) = false) ∧
    (∃ ax, ParamAxis.lower ("p") [F.num 0, F.num 0, F.num 1] (F.num 0) (F.num 1) = .ok ax ∧
      ax.interp (F.num 0) = some ⟨1, F.num 0⟩) := by
  refine ⟨⟨_, rfl, ?_⟩, ⟨_, rfl, ?_, rfl, rfl⟩, ⟨_, rfl, ?_⟩⟩ <;>
  · simp only [ParamAxis.interp, F.fmin, F.fmax, F.sub, F.div, F.gt, F.lt,
      List.findIdx?_cons]
    norm_num [List.findIdx?_cons]

/-- Witness for C5 at the concrete scenario axis: its min maps to bucket 0,
distance 0. -/
theorem interp_valid_axis_witness :
    ∃ ax, ParamAxis.lower ("p") [F.num 0, F.num (1/2), F.num 1] (F.num (-1)) (F.num 1) =
        .ok ax ∧ ax.interp (F.num (-1)) = some ⟨0, F.num 0⟩ := by
  have hok : ParamAxis.lower ("p") [F.num 0, F.num (1/2), F.num 1] (F.num (-1)) (F.num 1) =
      .ok ⟨F.num (-1), F.num 1, [F.num 0, F.num (1/2), F.num 1]⟩ := by
    simp only [ParamAxis.lower, isSortedTotal, optFBeq, F.beq, F.gt, F.lt, F.totalCmp]
    norm_num
    intro hcc
    exact (nomatch hcc)
  refine ⟨_, hok, ?_⟩
  exact (interp_valid_axis.1 ("p") [F.num 0, F.num (1/2), F.num 1] (F.num (-1)) (F.num 1)
    _ hok (by norm_num [F.lt]) (by norm_num) (by norm_num)).2.2.1

/-! ### Claim C6 — construction returns Unsupported on unsupported features -/

/-- Whether an `Except` carries a success. -/
def isOkE {ε α : Type} : Except ε α → Bool
  | .ok _ => true
  | .error _ => false

/-- The nine parameter target names `ParamTarget::from_str` recognizes. -/
def targetRecognized (s : String) : Bool :=
  s = "zSort" || s = "transform.t.x" || s = "transform.t.y" || s = "transform.t.z" ||
    s = "transform.r.x" || s = "transform.r.y" || s = "transform.r.z" ||
    s = "transform.s.x" || s = "transform.s.y"

/-- Whether a grid value is a per-vertex deformation. -/
def IoParamValue.isDeform : IoParamValue → Bool
  | .scalar _ => false
  | .deformation _ => true

/-- Whether an io binding uses a feature the engine rejects as unsupported:
a non-linear interpolation mode, an unrecognized target name, or a
deformation-typed grid value. -/
def bindingUnsupported (b : IoBinding) : Bool :=
  decide (b.interpolateMode ≠ .linear) || !targetRecognized b.paramName ||
    b.values.any (fun row => row.any IoParamValue.isDeform)

/-- Whether a node type tag is one the engine does not implement. -/
def badKind : IoNodeKind → Bool
  | .node => false
  | .drawable => false
  | .part => false
  | .pathDeform => true
  | .mask => true
  | .composite => true
  | .simplePhysics => true

mutual

/-- Whether the io tree contains a node whose type is none of plain Node,
Drawable, or Part. -/
def nodeHasBadKind : IoNode → Bool
  | .mk k _ _ _ _ _ children => badKind k || listHasBadKind children

/-- `nodeHasBadKind` over a forest. -/
def listHasBadKind : List IoNode → Bool
  | [] => false
  | a :: as => nodeHasBadKind a || listHasBadKind as

end

/-- Whether the description contains any of the four unsupported features of
claim C6. -/
def puppetHasUnsupported (p : InochiPuppet) : Bool :=
  p.params.any (fun pr => pr.bindings.any bindingUnsupported) ||
    nodeHasBadKind p.rootNode

/-- The axis-validity precondition of the amended C6: every axis the
lowering touches is accepted. -/
def paramAxesOk (p : IoParam) : Bool :=
  isOkE (ParamAxis.lowerAt p 0) && (!p.isVec2 || isOkE (ParamAxis.lowerAt p 1))

/-- `ParamTarget::from_str` succeeds exactly on the nine recognized names
and otherwise fails with an Unsupported error. -/
theorem fromStr_cases (s : String) :
    (targetRecognized s = true → ∃ t, ParamTarget.fromStr s = .ok t) ∧
    (targetRecognized s = false →
      ParamTarget.fromStr s = .error (.unsupported ("parameter target " ++ s))) := by
  unfold ParamTarget.fromStr targetRecognized
  split_ifs <;> simp_all

/-- Generic success/error analysis of `mapM` over `Except Error`: if the
element function succeeds exactly on good elements and only produces
Unsupported errors, so does the traversal. -/
theorem mapME_cases {α β : Type} (f : α → Except Error β) (bad : α → Bool)
    (hf : ∀ a, ((∃ b, f a = .ok b) ↔ bad a = false) ∧
      (∀ e, f a = .error e → e.isUnsupported = true)) :
    ∀ l : List α,
      ((∃ r, l.mapM f = .ok r) ↔ l.any bad = false) ∧
      (∀ e, l.mapM f = .error e → e.isUnsupported = true) := by
  intro l
  induction l with
  | nil =>
    rw [List.mapM_nil, exceptPureEq]
    exact ⟨⟨fun _ => rfl, fun _ => ⟨[], rfl⟩⟩, fun e he => (nomatch he)⟩
  | cons a l ih =>
    rw [List.mapM_cons]
    cases hfa : f a with
    | error e =>
      rw [exceptErrorBind]
      have hbad : bad a = true := by
        cases hb : bad a with
        | false =>
          obtain ⟨v, hv⟩ := (hf a).1.mpr hb
          rw [hfa] at hv
          cases hv
        | true => rfl
      refine ⟨⟨fun hr => ?_, fun hall => ?_⟩, fun e' he' => ?_⟩
      · obtain ⟨r, hr⟩ := hr
        cases hr
      · rw [List.any_cons, hbad] at hall
        cases hall
      · injection he' with he'
        subst he'
        exact (hf a).2 _ hfa
    | ok v =>
      rw [exceptOkBind]
      have hbad : bad a = false := (hf a).1.mp ⟨v, hfa⟩
      obtain ⟨hiv, herr⟩ := ih
      cases hml : l.mapM f with
      | error e =>
        rw [exceptErrorBind]
        refine ⟨⟨fun hr => ?_, fun hall => ?_⟩, fun e' he' => ?_⟩
        · obtain ⟨r, hr⟩ := hr
          cases hr
        · rw [List.any_cons] at hall
          obtain ⟨r, hr⟩ := hiv.mpr (Bool.or_eq_false_iff.mp hall).2
          rw [hml] at hr
          cases hr
        · injection he' with he'
          subst he'
          exact herr _ hml
      | ok vs =>
        rw [exceptOkBind, exceptPureEq]
        refine ⟨⟨fun _ => ?_, fun _ => ⟨v :: vs, rfl⟩⟩, fun e' he' => (nomatch he')⟩
        rw [List.any_cons, hbad]
        simpa using hiv.mp ⟨vs, hml⟩

/-- The binding step of `ParamMap::lower` succeeds exactly on bindings using
no unsupported feature, and only fails with Unsupported errors. -/
theorem lowerBinding_cases (handle : ParamHandle) (b : IoBinding) :
    ((∃ eb, ParamBinding.lower handle b = .ok eb) ↔ bindingUnsupported b = false) ∧
    (∀ e, ParamBinding.lower handle b = .error e → e.isUnsupported = true) := by
  have hconv : ∀ v : IoParamValue,
      ((∃ x, paramValueLower v = Except.ok x) ↔ IoParamValue.isDeform v = false) ∧
      (∀ e, paramValueLower v = Except.error e → e.isUnsupported = true) := by
    intro v
    cases v with
    | scalar f => exact ⟨⟨fun _ => rfl, fun _ => ⟨f, rfl⟩⟩, fun e he => (nomatch he)⟩
    | deformation d =>
      refine ⟨⟨?_, fun hc => (nomatch hc)⟩, ?_⟩
      · rintro ⟨x, hx⟩
        cases hx
      · intro e he
        injection he with he
        rw [← he]
        rfl
  have hrow := fun row => mapME_cases paramValueLower IoParamValue.isDeform hconv row
  have houter := mapME_cases (fun row : List IoParamValue => row.mapM paramValueLower)
    (fun row => row.any IoParamValue.isDeform) hrow b.values
  unfold ParamBinding.lower
  by_cases hmode : b.interpolateMode ≠ InterpolateMode.linear
  · rw [if_pos hmode]
    refine ⟨⟨?_, ?_⟩, ?_⟩
    · rintro ⟨eb, heb⟩
      cases heb
    · intro hbu
      exfalso
      simp [bindingUnsupported, hmode] at hbu
    · intro e he
      injection he with he
      rw [← he]
      rfl
  · rw [if_neg hmode]
    have hmode' : b.interpolateMode = .linear := not_ne_iff.mp hmode
    cases htr : targetRecognized b.paramName with
    | false =>
      rw [(fromStr_cases b.paramName).2 htr, exceptErrorBind]
      refine ⟨⟨?_, ?_⟩, ?_⟩
      · rintro ⟨eb, heb⟩
        cases heb
      · intro hbu
        exfalso
        simp [bindingUnsupported, htr] at hbu
      · intro e he
        injection he with he
        rw [← he]
        rfl
    | true =>
      obtain ⟨t, ht⟩ := (fromStr_cases b.paramName).1 htr
      rw [ht, exceptOkBind]
      cases hm : b.values.mapM (fun row => row.mapM paramValueLower) with
      | error e =>
        rw [exceptErrorBind]
        refine ⟨⟨?_, ?_⟩, ?_⟩
        · rintro ⟨eb, heb⟩
          cases heb
        · intro hbu
          have hnd : b.values.any (fun row => row.any IoParamValue.isDeform) = false := by
            simpa [bindingUnsupported, hmode', htr] using hbu
          obtain ⟨r, hr⟩ := houter.1.mpr hnd
          rw [hm] at hr
          cases hr
        · intro e' he'
          injection he' with he'
          subst he'
          exact houter.2 _ hm
      | ok vals =>
        rw [exceptOkBind, exceptPureEq]
        refine ⟨⟨fun _ => ?_, fun _ => ⟨_, rfl⟩⟩, fun e' he' => (nomatch he')⟩
        have hany := houter.1.mp ⟨vals, hm⟩
        simp [bindingUnsupported, hmode', htr, hany]

/-- `isOkE` detects exactly the successes. -/
theorem isOkE_iff {ε α : Type} {x : Except ε α} : isOkE x = true ↔ ∃ a, x = .ok a := by
  cases x <;> simp [isOkE]

/-- The binding fold of `ParamMap::lower` succeeds exactly when every
binding of the parameter is free of unsupported features, and only fails
with Unsupported errors. -/
theorem bindingFold_cases (handle : ParamHandle) : ∀ (l : List IoBinding) (m : ParamMap),
    ((∃ m', l.foldlM (fun m b => do
        let eb ← ParamBinding.lower handle b
        pure (m.insert b.node eb)) m = .ok m') ↔ l.any bindingUnsupported = false) ∧
    (∀ e, l.foldlM (fun m b => do
        let eb ← ParamBinding.lower handle b
        pure (m.insert b.node eb)) m = .error e → e.isUnsupported = true)
  | [], m => by
    rw [List.foldlM_nil, exceptPureEq]
    exact ⟨⟨fun _ => rfl, fun _ => ⟨m, rfl⟩⟩, fun e he => (nomatch he)⟩
  | b :: l, m => by
    rw [List.foldlM_cons]
    cases hb : ParamBinding.lower handle b with
    | error e =>
      rw [exceptErrorBind, exceptErrorBind]
      have hbad : bindingUnsupported b = true := by
        cases hbb : bindingUnsupported b with
        | false =>
          obtain ⟨eb, heb⟩ := (lowerBinding_cases handle b).1.mpr hbb
          rw [hb] at heb
          cases heb
        | true => rfl
      refine ⟨⟨?_, ?_⟩, ?_⟩
      · rintro ⟨m', hm'⟩
        cases hm'
      · intro hall
        rw [List.any_cons, hbad] at hall
        cases hall
      · intro e' he'
        injection he' with he'
        subst he'
        exact (lowerBinding_cases handle b).2 _ hb
    | ok eb =>
      rw [exceptOkBind, exceptPureEq, exceptOkBind]
      have hgood : bindingUnsupported b = false := (lowerBinding_cases handle b).1.mp ⟨eb, hb⟩
      obtain ⟨hiv, herr⟩ := bindingFold_cases handle l (m.insert b.node eb)
      rw [List.any_cons, hgood, Bool.false_or]
      exact ⟨hiv, herr⟩

/-- `ParamMap::lowerParam` on a parameter with valid axes succeeds exactly
when its bindings are free of unsupported features, and only fails with
Unsupported errors. -/
theorem lowerParam_cases (m : ParamMap) (p : IoParam) (hax : paramAxesOk p = true) :
    ((∃ m', ParamMap.lowerParam m p = .ok m') ↔
      p.bindings.any bindingUnsupported = false) ∧
    (∀ e, ParamMap.lowerParam m p = .error e → e.isUnsupported = true) := by
  unfold ParamMap.lowerParam
  rw [paramAxesOk, Bool.and_eq_true] at hax
  obtain ⟨ax0, hax0⟩ := isOkE_iff.mp hax.1
  cases hv : p.isVec2 with
  | true =>
    rw [if_pos rfl]
    have hax1e : isOkE (ParamAxis.lowerAt p 1) = true := by
      have h2 := hax.2
      rw [hv] at h2
      simpa using h2
    obtain ⟨ax1, hax1⟩ := isOkE_iff.mp hax1e
    rw [hax0, exceptOkBind, hax1, exceptOkBind, exceptPureEq, exceptOkBind]
    exact bindingFold_cases _ p.bindings m
  | false =>
    rw [if_neg Bool.false_ne_true]
    rw [hax0, exceptOkBind, exceptPureEq, exceptOkBind]
    exact bindingFold_cases _ p.bindings m

/-- The parameter fold of `ParamMap::lower` (all axes valid) succeeds
exactly when no binding of any parameter uses an unsupported feature, and
only fails with Unsupported errors. -/
theorem paramFold_cases : ∀ (l : List IoParam) (m : ParamMap),
    (∀ p ∈ l, paramAxesOk p = true) →
    ((∃ m', l.foldlM ParamMap.lowerParam m = .ok m') ↔
      l.any (fun p => p.bindings.any bindingUnsupported) = false) ∧
    (∀ e, l.foldlM ParamMap.lowerParam m = .error e → e.isUnsupported = true)
  | [], m, _ => by
    rw [List.foldlM_nil, exceptPureEq]
    exact ⟨⟨fun _ => rfl, fun _ => ⟨m, rfl⟩⟩, fun e he => (nomatch he)⟩
  | p :: l, m, haxes => by
    rw [List.foldlM_cons]
    have haxp := haxes p (List.mem_cons_self p l)
    have haxl := fun q hq => haxes q (List.mem_cons_of_mem p hq)
    cases hp : ParamMap.lowerParam m p with
    | error e =>
      rw [exceptErrorBind]
      have hbad : p.bindings.any bindingUnsupported = true := by
        cases hbb : p.bindings.any bindingUnsupported with
        | false =>
          obtain ⟨m', hm'⟩ := (lowerParam_cases m p haxp).1.mpr hbb
          rw [hp] at hm'
          cases hm'
        | true => rfl
      refine ⟨⟨?_, ?_⟩, ?_⟩
      · rintro ⟨m', hm'⟩
        cases hm'
      · intro hall
        rw [List.any_cons, hbad] at hall
        cases hall
      · intro e' he'
        injection he' with he'
        subst he'
        exact (lowerParam_cases m p haxp).2 _ hp
    | ok m1 =>
      have hgood : p.bindings.any bindingUnsupported = false :=
        (lowerParam_cases m p haxp).1.mp ⟨m1, hp⟩
      obtain ⟨hiv, herr⟩ := paramFold_cases l m1 haxl
      rw [exceptOkBind, List.any_cons, hgood, Bool.false_or]
      exact ⟨hiv, herr⟩

mutual

/-- Node lowering succeeds exactly when no node in the subtree has an
unimplemented type, and only fails with Unsupported errors. -/
theorem fromIo_cases : ∀ (m : ParamMap) (io : IoNode),
    ((∃ r, Node.fromIo m io = .ok r) ↔ nodeHasBadKind io = false) ∧
    (∀ e, Node.fromIo m io = .error e → e.isUnsupported = true)
  | m, .mk kind v name zsort tf lock children => by
    have hrec := fromIoList_cases m children
    cases hcs : Node.fromIoList m children with
    | error e =>
      have hbadc : listHasBadKind children = true := by
        cases hbb : listHasBadKind children with
        | false =>
          obtain ⟨r, hr⟩ := hrec.1.mpr hbb
          rw [hcs] at hr
          cases hr
        | true => rfl
      cases kind <;>
        simp only [Node.fromIo, hcs, exceptErrorBind, exceptOkBind, exceptPureEq,
          nodeHasBadKind, badKind, hbadc] <;>
        refine ⟨⟨fun hr => ?_, fun hgood => ?_⟩, fun e' he' => ?_⟩ <;>
        first
        | (obtain ⟨r, hr⟩ := hr
           cases hr)
        | (cases hgood)
        | (injection he' with he'
           first
           | (subst he'
              exact hrec.2 _ hcs)
           | (rw [← he']
              rfl))
    | ok cs =>
      have hgoodc : listHasBadKind children = false := hrec.1.mp ⟨cs, hcs⟩
      cases kind <;>
        simp only [Node.fromIo, hcs, exceptErrorBind, exceptOkBind, exceptPureEq,
          nodeHasBadKind, badKind, hgoodc] <;>
        refine ⟨⟨fun hr => ?_, fun hgood => ?_⟩, fun e' he' => ?_⟩ <;>
        first
        | exact ⟨_, rfl⟩
        | rfl
        | (obtain ⟨r, hr⟩ := hr
           cases hr)
        | (cases hgood)
        | (cases he' <;> rfl)

/-- Forest version of `fromIo_cases`. -/
theorem fromIoList_cases : ∀ (m : ParamMap) (l : List IoNode),
    ((∃ r, Node.fromIoList m l = .ok r) ↔ listHasBadKind l = false) ∧
    (∀ e, Node.fromIoList m l = .error e → e.isUnsupported = true)
  | m, [] => by
    simp only [Node.fromIoList]
    exact ⟨⟨fun _ => rfl, fun _ => ⟨([], m), rfl⟩⟩, fun e he => (nomatch he)⟩
  | m, a :: l => by
    have hna := fromIo_cases m a
    cases hca : Node.fromIo m a with
    | error e =>
      have hbada : nodeHasBadKind a = true := by
        cases hbb : nodeHasBadKind a with
        | false =>
          obtain ⟨r, hr⟩ := hna.1.mpr hbb
          rw [hca] at hr
          cases hr
        | true => rfl
      simp only [Node.fromIoList, hca, exceptErrorBind]
      refine ⟨⟨?_, ?_⟩, ?_⟩
      · rintro ⟨r, hr⟩
        cases hr
      · intro hgood
        rw [listHasBadKind, hbada] at hgood
        cases hgood
      · intro e' he'
        injection he' with he'
        subst he'
        exact hna.2 _ hca
    | ok ca =>
      have hgooda : nodeHasBadKind a = false := hna.1.mp ⟨ca, hca⟩
      have hns := fromIoList_cases ca.2 l
      cases hcs : Node.fromIoList ca.2 l with
      | error e =>
        have hbadl : listHasBadKind l = true := by
          cases hbb : listHasBadKind l with
          | false =>
            obtain ⟨r, hr⟩ := hns.1.mpr hbb
            rw [hcs] at hr
            cases hr
          | true => rfl
        simp only [Node.fromIoList, hca, hcs, exceptOkBind, exceptErrorBind]
        refine ⟨⟨?_, ?_⟩, ?_⟩
        · rintro ⟨r, hr⟩
          cases hr
        · intro hgood
          rw [listHasBadKind, hbadl] at hgood
          simp at hgood
        · intro e' he'
          injection he' with he'
          subst he'
          exact hns.2 _ hcs
      | ok cs =>
        have hgoodl : listHasBadKind l = false := hns.1.mp ⟨cs, hcs⟩
        simp only [Node.fromIoList, hca, hcs, exceptOkBind, exceptPureEq]
        refine ⟨⟨fun _ => ?_, fun _ => ⟨_, rfl⟩⟩, fun e' he' => (nomatch he')⟩
        rw [listHasBadKind, hgooda, hgoodl]
        rfl

end

/-- Claim C6 (amended): provided every parameter axis passes the validity
checks, `PuppetEngine::new` returns an Unsupported error (and no engine)
exactly when the description contains a binding with a non-Linear
interpolation mode, a deformation-typed binding value, a binding target
outside the nine recognized names, or a node whose type is not plain Node,
Drawable or Part; the counterexample shows the unrestricted claim fails when
an Invalid axis precedes the unsupported feature. -/
theorem new_unsupported_iff (puppet : InochiPuppet)
    (haxes : ∀ p ∈ puppet.params, paramAxesOk p = true) :
    ((∃ e, PuppetEngine.new puppet = .error e ∧ e.isUnsupported = true) ↔
      puppetHasUnsupported puppet = true) := by
  have hpf := paramFold_cases puppet.params ParamMap.empty haxes
  unfold PuppetEngine.new ParamMap.lower
  cases hm : puppet.params.foldlM ParamMap.lowerParam ParamMap.empty with
  | error e =>
    rw [exceptErrorBind]
    have hbadp : puppet.params.any (fun p => p.bindings.any bindingUnsupported) = true := by
      cases hbb : puppet.params.any (fun p => p.bindings.any bindingUnsupported) with
      | false =>
        obtain ⟨m', hm'⟩ := hpf.1.mpr hbb
        rw [hm] at hm'
        cases hm'
      | true => rfl
    constructor
    · intro _
      simp [puppetHasUnsupported, hbadp]
    · intro _
      exact ⟨e, rfl, hpf.2 e hm⟩
  | ok m0 =>
    rw [exceptOkBind]
    have hgoodp : puppet.params.any (fun p => p.bindings.any bindingUnsupported) = false :=
      hpf.1.mp ⟨m0, hm⟩
    have hnode := fromIo_cases m0 puppet.rootNode
    cases hr : Node.fromIo m0 puppet.rootNode with
    | error e =>
      rw [exceptErrorBind]
      have hbadn : nodeHasBadKind puppet.rootNode = true := by
        cases hbb : nodeHasBadKind puppet.rootNode with
        | false =>
          obtain ⟨r, hr'⟩ := hnode.1.mpr hbb
          rw [hr] at hr'
          cases hr'
        | true => rfl
      constructor
      · intro _
        simp [puppetHasUnsupported, hbadn]
      · intro _
        exact ⟨e, rfl, hnode.2 e hr⟩
    | ok r =>
      rw [exceptOkBind, exceptPureEq]
      have hgoodn : nodeHasBadKind puppet.rootNode = false := hnode.1.mp ⟨r, hr⟩
      constructor
      · rintro ⟨e, he, -⟩
        cases he
      · intro hup
        rw [puppetHasUnsupported, hgoodp, hgoodn] at hup
        cases hup

/-- A description with an invalid axis (breakpoints starting at 1) and a
binding with Nearest interpolation mode. -/
def c6Puppet : InochiPuppet :=
  ⟨[⟨("p"), false, (0, 0), (1, 0), (0, 0), ([F.num 1, F.num 0], [F.num 0]),
    [⟨1, ("zSort"), [[IoParamValue.scalar 0]], .nearest⟩]⟩],
    .mk .node 1 ("root") 0 IoTransform.new false []⟩

/-- Counterexample to C6 as stated: `c6Puppet` contains a binding whose
interpolation mode is not Linear, yet construction returns an Invalid error
(for the axis), not an Unsupported one. -/
theorem new_unsupported_iff_counterexample :
    puppetHasUnsupported c6Puppet = true ∧
    ∃ e, PuppetEngine.new c6Puppet = .error e ∧ e.isInvalid = true := by
  exact ⟨rfl, ⟨_, rfl, rfl⟩⟩

/-- The same description with a valid axis: now the Nearest-mode binding
does surface as an Unsupported error. -/
def c6WitnessPuppet : InochiPuppet :=
  ⟨[⟨("p"), false, (0, 0), (1, 0), (0, 0), ([F.num 0, F.num 1], [F.num 0]),
    [⟨1, ("zSort"), [[IoParamValue.scalar 0]], .nearest⟩]⟩],
    .mk .node 1 ("root") 0 IoTransform.new false []⟩

/-- Witness for C6 at `c6WitnessPuppet`. -/
theorem new_unsupported_iff_witness :
    ∃ e, PuppetEngine.new c6WitnessPuppet = .error e ∧ e.isUnsupported = true := by
  have haxes : ∀ p ∈ c6WitnessPuppet.params, paramAxesOk p = true := by
    intro p hp
    rcases List.mem_singleton.mp hp with rfl
    rfl
  exact (new_unsupported_iff c6WitnessPuppet haxes).mpr rfl

/-! ### Claim C2 — update after successful construction -/

/-- A description whose single 1D parameter has two axis breakpoints but a
binding with a 1x1 value grid; construction checks the axes and the binding
features, but never that the grid dimensions match the breakpoint counts. -/
def c2Puppet : InochiPuppet :=
  ⟨[⟨("p"), false, (0, 0), (1, 0), (1, 0), ([F.num 0, F.num 1], []),
    [⟨42, ("zSort"), [[IoParamValue.scalar 5]], .linear⟩]⟩],
    .mk .node 42 ("root") 0 IoTransform.new false []⟩

/-- The engine `PuppetEngine::new` builds for `c2Puppet`: the root node owns
the lowered binding, whose grid row `[5]` is shorter than the two breakpoints of the
axis. -/
def c2Engine : PuppetEngine :=
  ⟨.mk false 42 [] [⟨.param1D ⟨⟨0, 1, [F.num 0, F.num 1]⟩, 1⟩, .zSort, [[5]]⟩]
    (Transform.fromIo IoTransform.new) 0 Transform.identity 0 false, ⟨[]⟩⟩

/-- Claim C2 (refuting evaluation): construction accepts `c2Puppet` even
though the binding's grid row has 1 entry while the axis has 2 breakpoints,
and the very first `update` then fails: the parameter's default value 1 maps
to `Interp` bucket 0 with distance 1 > 0, so `Interp::lookup` reads
`values[start_index + 1]` past the end of the 1-entry row — an out-of-bounds
panic, `none` in this model — instead of returning a complete render command
list. -/
theorem update_panics_after_ok_construction :
    PuppetEngine.new c2Puppet = .ok c2Engine ∧ c2Engine.update 0 = none := by
  refine ⟨rfl, ?_⟩
  simp only [PuppetEngine.update, Node.update, Node.updateRecursive, Node.updateSelf,
    Node.updateChildList, applyParams, ParamBinding.value, ParamAxis.interp, Interp.lookup,
    F.fmin, F.fmax, F.sub, F.div, F.gt, F.lt, List.findIdx?_cons, c2Engine]
  norm_num [List.findIdx?_cons]
